import Mathlib

/-!
Shallow embedding of the QUIC transport core and of the HTTP framing mux of
this repository (src/src/quic_conn.c, src/src/xprt_quic.c, src/src/mux_h3.c),
together with theorems settling the behavioural claims about it.

Machine integers are modelled as `Nat`/`Int`; wrap-around of the C `uint64_t`
and `int32_t` arithmetic is made explicit (`u64sub`, `i32`) exactly where the
C source can overflow.  Bytes are `Nat` values of `unsigned char` cells, with
the truncation of every store made explicit through `u8`.
-/

namespace Quic

/-- Truncation applied by every C store through an `unsigned char` lvalue. -/
def u8 (x : Nat) : Nat := x % 256

/-- `uint64_t` subtraction (`a - b` computed modulo `2^64`), as performed on
`conn->crypto_in_flight` by the ACK-processing code. -/
def u64sub (a b : Nat) : Nat := (a % 2 ^ 64 + (2 ^ 64 - b % 2 ^ 64)) % 2 ^ 64

/-- `~x` on a `uint64_t` operand `x < 2^64`. -/
def u64compl (x : Nat) : Nat := 2 ^ 64 - 1 - x

/-- Wrap an integer to the value of the corresponding `int32_t` (two's
complement), the type of the h3 mux window fields. -/
def i32 (x : Int) : Int := (x + 2 ^ 31) % 2 ^ 32 - 2 ^ 31

/-- `QUIC_VARINT_BYTE_0_BITMASK` (src/src/quic_conn.c). -/
def QUIC_VARINT_BYTE_0_BITMASK : Nat := 0x3f

/-- `QUIC_VARINT_BYTE_0_SHIFT` (src/src/quic_conn.c). -/
def QUIC_VARINT_BYTE_0_SHIFT : Nat := 6

/-- `quic_dec_int` (src/src/quic_conn.c): decode a QUIC variable-length
integer from the bytes between `*buf` and `end`, here the list `buf`.
`none` models the `(uint64_t)-1` error return; on success the decoded value
is returned together with the not-yet-consumed bytes (the advanced `*buf`). -/
def quic_dec_int (buf : List Nat) : Option (Nat × List Nat) :=
  match buf with
  | [] => none
  | b :: rest =>
    let len := 1 <<< (b >>> QUIC_VARINT_BYTE_0_SHIFT)
    if rest.length + 1 < len then none
    else
      some ((rest.take (len - 1)).foldl (fun ret byte => (ret <<< 8) ||| byte)
              (b &&& QUIC_VARINT_BYTE_0_BITMASK),
            rest.drop (len - 1))

/-- `quic_enc_int` (src/src/quic_conn.c): encode `val` as a QUIC
variable-length integer when there is room for it between `*buf` and `end`
(`room` bytes).  `none` models the `0` error return, `some bytes` the bytes
stored through `*(*buf)++`, each store truncating to `unsigned char`. -/
def quic_enc_int (room : Nat) (val : Nat) : Option (List Nat) :=
  if 2 ^ 30 ≤ val ∧ val ≤ 2 ^ 62 - 1 then
    if room < 8 then none
    else some [u8 (0xc0 ||| (val >>> 56)), u8 (val >>> 48), u8 (val >>> 40),
               u8 (val >>> 32), u8 (val >>> 24), u8 (val >>> 16), u8 (val >>> 8), u8 val]
  else if 2 ^ 14 ≤ val ∧ val ≤ 2 ^ 30 - 1 then
    if room < 4 then none
    else some [u8 (0x80 ||| (val >>> 24)), u8 (val >>> 16), u8 (val >>> 8), u8 val]
  else if 2 ^ 6 ≤ val ∧ val ≤ 2 ^ 14 - 1 then
    if room < 2 then none
    else some [u8 (0x40 ||| (val >>> 8)), u8 val]
  else if val ≤ 2 ^ 6 - 1 then
    if room < 1 then none
    else some [u8 val]
  else none

/-- Modelled from the spec: `quic_int_getsize` is used by
`qc_do_build_hdshk_pkt` but lives in a header that is not under src/; per the
spec the encoder chooses the smallest of the lengths 1, 2, 4, 8 that fits the
value, which is what this size function returns for every encodable value. -/
def quic_int_getsize (val : Nat) : Nat :=
  if val < 2 ^ 6 then 1 else if val < 2 ^ 14 then 2 else if val < 2 ^ 30 then 4 else 8

/-- `decode_packet_number` (src/src/xprt_quic.c): expand a truncated packet
number, `pn_nbits` being the number of encoded bits.  All quantities are
`uint64_t`; within the argument ranges used by the caller (packet numbers
below `2^62`, `pn_nbits ≤ 32`) none of the C additions can wrap, and the
shift down by `pn_win` is guarded by `candidate_pn > pn_win` exactly as in
the source. -/
def decode_packet_number (largest_pn truncated_pn pn_nbits : Nat) : Nat :=
  let expected_pn := largest_pn + 1
  let pn_win := 1 <<< pn_nbits
  let pn_hwin := pn_win / 2
  let pn_mask := pn_win - 1
  let candidate_pn := (expected_pn &&& u64compl pn_mask) ||| truncated_pn
  if candidate_pn + pn_hwin ≤ expected_pn then candidate_pn + pn_win
  else if expected_pn + pn_hwin < candidate_pn ∧ pn_win < candidate_pn then
    candidate_pn - pn_win
  else candidate_pn

/-- `QUIC_PACKET_PN_MAXLEN`: maximal length in bytes of an encoded packet
number.  The macro lives in a header not under src/; the spec fixes the PN
length range to 1..4 bytes. -/
def QUIC_PACKET_PN_MAXLEN : Nat := 4

/-- Header-protection sample length: 16 bytes (spec, section 6; the sample is
the IV-sized block passed to the header-protection cipher by `qc_do_rm_hp`). -/
def QUIC_HP_SAMPLE_LEN : Nat := 16

/-- The only length precondition of `qc_do_rm_hp` (src/src/xprt_quic.c):
`end - pn < QUIC_PACKET_PN_MAXLEN + sizeof mask` makes it return 0, where
`mask` is a 5-byte local array.  `tail` is `end - pn`, the number of bytes
from the packet-number field to the end of the packet. -/
def qc_do_rm_hp_len_check (tail : Nat) : Bool :=
  ! decide (tail < QUIC_PACKET_PN_MAXLEN + 5)

/-- Whether the 16-byte header-protection sample read by `qc_do_rm_hp` at
`sample = pn + QUIC_PACKET_PN_MAXLEN` lies entirely within the `tail` bytes
the packet still has after the packet-number field. -/
def qc_do_rm_hp_sample_in_bounds (tail : Nat) : Bool :=
  decide (QUIC_PACKET_PN_MAXLEN + QUIC_HP_SAMPLE_LEN ≤ tail)

end Quic

namespace Quic

/-- `struct quic_ack_range` (src/include/types/xprt_quic.h): one inclusive
range of acknowledged packet numbers, `int64_t` endpoints. -/
structure AckRange where
  first : Int
  last : Int
deriving Repr, DecidableEq

/-- `quic_update_ack_ranges_list` (src/src/xprt_quic.c): insert packet number
`pn` into the list of ACK ranges.  The intrusive list is kept in descending
order (head holds the largest packet numbers); the list of this model is the
list order of the source, head first.  Each equation mirrors one branch of
the `list_for_each_entry_safe` body, the final one being the `prev = curr`
fall-through that moves to the next (smaller) range. -/
def quic_update_ack_ranges_list : List AckRange → Int → List AckRange
  | [], pn => [⟨pn, pn⟩]
  | curr :: rest, pn =>
    if pn ≥ curr.first ∧ pn ≤ curr.last then curr :: rest
    else if pn > curr.last + 1 then ⟨pn, pn⟩ :: curr :: rest
    else if curr.last + 1 = pn then ⟨curr.first, pn⟩ :: rest
    else if curr.first = pn + 1 then
      match rest with
      | next :: rest2 =>
        if pn = next.last + 1 then ⟨next.first, curr.last⟩ :: rest2
        else ⟨pn, curr.last⟩ :: rest
      | [] => ⟨pn, curr.last⟩ :: rest
    else
      match rest with
      | [] => curr :: [⟨pn, pn⟩]
      | next :: rest2 => curr :: quic_update_ack_ranges_list (next :: rest2) pn

/-- Well-formedness of an ACK-range list as stated by the spec: every range
is non-empty (`first ≤ last`), and the descending list is disjoint and
merged: each later (smaller) range stops strictly more than one below the
first of its predecessor. -/
def rangesWF (l : List AckRange) : Prop :=
  (∀ r ∈ l, r.first ≤ r.last) ∧ List.Chain' (fun a b => b.last + 1 < a.first) l

instance rangesWF_decidable (l : List AckRange) : Decidable (rangesWF l) :=
  inferInstanceAs (Decidable ((∀ r ∈ l, r.first ≤ r.last) ∧
    List.Chain' (fun a b : AckRange => b.last + 1 < a.first) l))

/-- The set of packet numbers represented by an ACK-range list. -/
def rangesCover (l : List AckRange) (x : Int) : Prop :=
  ∃ r ∈ l, r.first ≤ x ∧ x ≤ r.last

instance rangesCover_decidable (l : List AckRange) (x : Int) : Decidable (rangesCover l x) :=
  inferInstanceAs (Decidable (∃ r ∈ l, r.first ≤ x ∧ x ≤ r.last))

end Quic

namespace Quic

/-- `struct quic_tx_crypto_frm` (src/include/types/xprt_quic.h): descriptor
of an outgoing CRYPTO frame, keyed by the packet number it was sent in. -/
structure TxCryptoFrm where
  pn : Nat
  offset : Nat
  len : Nat
deriving Repr, DecidableEq

/-- An `eb_root` of `quic_tx_crypto_frm` nodes is modelled by its in-order
traversal: the list of descriptors in ascending `pn` order. -/
abbrev FrmTree := List TxCryptoFrm

/-- Sum of the `len` fields of a tree, the quantity `crypto_in_flight`
accounts for. -/
def sumLens (l : FrmTree) : Nat := (l.map (fun f => f.len)).sum

/-- `quic_ack_range_crypto_frames` (src/src/xprt_quic.c): starting from the
node with key exactly `largest` (`eb64_lookup`), delete every node reached by
`eb64_prev` while its key is `≥ smallest`, subtracting each deleted frame
length from the in-flight counter (a `uint64_t`).  Returns the new tree, the
new counter and the last node reached, i.e. the largest remaining node with
key `< smallest` (`none` when `largest` was not found, in which case nothing
is removed, or when no node is left below `smallest`). -/
def quic_ack_range_crypto_frames (frms : FrmTree) (ifcdata largest smallest : Nat) :
    FrmTree × Nat × Option TxCryptoFrm :=
  if frms.any (fun f => decide (f.pn = largest)) then
    let removed := frms.filter (fun f => decide (smallest ≤ f.pn ∧ f.pn ≤ largest))
    let kept := frms.filter (fun f => ! decide (smallest ≤ f.pn ∧ f.pn ≤ largest))
    (kept,
     removed.foldl (fun a f => u64sub a f.len) ifcdata,
     (kept.filter (fun f => decide (f.pn < smallest))).getLast?)
  else
    (frms, ifcdata, none)

/-- The set of nodes merged by the `eb64_prev` loop of
`quic_ack_range_with_gap_crypto_frames`: the node `frm` returned by the range
removal plus every node strictly below it whose key is `> next_largest`.
`frm` itself is merged unconditionally (the loop never tests its key). -/
def gapMerged (next_largest frmpn : Nat) (f : TxCryptoFrm) : Bool :=
  decide (f.pn = frmpn ∨ (next_largest < f.pn ∧ f.pn < frmpn))

/-- `quic_ack_range_with_gap_crypto_frames` (src/src/xprt_quic.c): remove the
acknowledged `[smallest, largest]` nodes, then accumulate the consecutive
CRYPTO frames of the gap down to (not including) `next_largest` into the
lowest of them, whose length becomes the sum of the merged lengths (the
`prev_frm->len += frm->len` walk); the higher merged nodes are freed.  The
accumulated length is subtracted from the in-flight counter.  Returns the new
tree, the new counter, and the aggregated frame (still a member of the tree),
or `none` when the range removal returned no node. -/
def quic_ack_range_with_gap_crypto_frames (frms : FrmTree)
    (ifcdata largest smallest next_largest : Nat) :
    FrmTree × Nat × Option TxCryptoFrm :=
  match quic_ack_range_crypto_frames frms ifcdata largest smallest with
  | (frms1, ifc1, none) => (frms1, ifc1, none)
  | (frms1, ifc1, some frm) =>
    let merged := frms1.filter (gapMerged next_largest frm.pn)
    let base := (merged.head?).getD frm
    let total := sumLens merged
    let aggr : TxCryptoFrm := ⟨base.pn, base.offset, total⟩
    (frms1.filterMap (fun f =>
       if f.pn = base.pn then some aggr
       else if gapMerged next_largest frm.pn f then none
       else some f),
     u64sub ifc1 total,
     some aggr)

/-- The mutable per-connection state touched by ACK processing: the outgoing
and retransmit CRYPTO-frame trees of the level, the `crypto_in_flight`
counter, the `retransmit` flag of the connection, and the packet-number-space
fields read and written by `qc_parse_ack_frm`. -/
structure ConnTxState where
  frms : FrmTree
  retransmit_frms : FrmTree
  crypto_in_flight : Nat
  retransmit : Bool
  tx_next_pn : Nat
  rx_largest_acked_pn : Int
deriving Repr, DecidableEq

/-- `eb64_insert` into the retransmit tree, modelled on the in-order list. -/
def insertByPn (f : TxCryptoFrm) : FrmTree → FrmTree
  | [] => [f]
  | g :: rest => if f.pn < g.pn then f :: g :: rest else g :: insertByPn f rest

/-- The `do { ... } while (1)` loop of `qc_parse_ack_frm`
(src/src/xprt_quic.c).  `num` is `ack->ack_range_num` (the loop runs the
`(gap, ack_range)` branch once per remaining range and the final plain range
removal when it reaches 0, mirroring `if (!ack->ack_range_num--)`);
`pairs` holds the `(gap, ack_range)` values that `quic_dec_int` would decode
from the frame payload, an exhausted list modelling a decode failure.
`none` models the `goto err` return 0. -/
def qc_parse_ack_frm_loop (st : ConnTxState) :
    Nat → Nat → Nat → List (Nat × Nat) → Option ConnTxState
  | largest, smallest, 0, _ =>
    let r := quic_ack_range_crypto_frames st.frms st.crypto_in_flight largest smallest
    some { st with frms := r.1, crypto_in_flight := r.2.1 }
  | largest, smallest, num + 1, pairs =>
    match pairs with
    | [] => none
    | (gap, ack_range) :: rest =>
      if smallest < gap + 2 then none
      else if smallest - gap - 2 < ack_range then none
      else
        let next_largest := smallest - gap - 2
        match quic_ack_range_with_gap_crypto_frames st.frms st.crypto_in_flight
                largest smallest next_largest with
        | (frms1, ifc1, node) =>
          let st1 :=
            match node with
            | some frm =>
              { st with
                frms := frms1.filter (fun f => ! decide (f.pn = frm.pn)),
                retransmit_frms := insertByPn frm st.retransmit_frms,
                crypto_in_flight := ifc1,
                retransmit := true }
            | none => { st with frms := frms1, crypto_in_flight := ifc1 }
          qc_parse_ack_frm_loop st1 next_largest (next_largest - ack_range) num rest

/-- The decoded fields of a received ACK frame as seen by `qc_parse_ack_frm`. -/
structure AckFrm where
  largest_ack : Nat
  first_ack_range : Nat
  ack_range_num : Nat
  pairs : List (Nat × Nat)
deriving Repr, DecidableEq

/-- `qc_parse_ack_frm` (src/src/xprt_quic.c): validate the ACK frame, run the
range walk, then raise `rx.largest_acked_pn`.  `none` models the error
return 0. -/
def qc_parse_ack_frm (st : ConnTxState) (ack : AckFrm) : Option ConnTxState :=
  if ack.largest_ack > st.tx_next_pn then none
  else if ack.first_ack_range > ack.largest_ack then none
  else
    match qc_parse_ack_frm_loop st ack.largest_ack (ack.largest_ack - ack.first_ack_range)
            ack.ack_range_num ack.pairs with
    | none => none
    | some st1 =>
      some { st1 with
             rx_largest_acked_pn :=
               if (ack.largest_ack : Int) > st1.rx_largest_acked_pn then
                 (ack.largest_ack : Int)
               else st1.rx_largest_acked_pn }

end Quic

namespace Quic

/-- A packet of a level's rx tree as seen by `qc_treat_rx_pkts`
(src/src/xprt_quic.c).  `decrypt_ok` abstracts the outcome of
`qc_pkt_decrypt` (an external AEAD call), `parse_ok` the outcome of the frame
walk of `qc_parse_hdshk_pkt`/`qc_parse_apkt` on this packet's payload, and
`ssl_ok` the outcome of `SSL_provide_quic_data` on its CRYPTO bytes.
`crypto` holds the `(offset, len)` of the packet's CRYPTO frame as stored
into `qpkt->crypto` by `qc_parse_hdshk_pkt` (`none` when the packet carries
none; `qc_parse_apkt` never stores one).  `ack_eliciting` tells whether the
frame walk sets `QUIC_FL_RX_PACKET_ACK_ELICITING`.  `ooo` is
`QUIC_FL_RX_PACKET_OUT_OF_ORDER`, set by a previous call for packets
retained in the tree. -/
structure RxPkt where
  pn : Nat
  long_header : Bool
  decrypt_ok : Bool
  parse_ok : Bool
  ssl_ok : Bool
  ack_eliciting : Bool
  crypto : Option (Nat × Nat)
  ooo : Bool
deriving Repr, DecidableEq

/-- The per-level and per-packet-number-space state read and written by
`qc_treat_rx_pkts`: `el->rx.crypto.offset` plus the rx packet-number-space
bookkeeping (largest pn, ack-eliciting counter, ACK_REQUIRED flag, ACK
ranges). -/
structure RxLevelState where
  crypto_offset : Nat
  largest_pn : Int
  nb_ack_eliciting : Nat
  ack_required : Bool
  ack_ranges : List AckRange
deriving Repr, DecidableEq

/-- Result of one `qc_treat_rx_pkts` run: the return value (`false` models
the `goto err` return 0 after an `SSL_provide_quic_data` failure), the
packets still in the rx tree, the final level state, and the `(offset, len)`
CRYPTO chunks passed to the TLS stack, in call order. -/
structure TreatResult where
  ok : Bool
  tree : List RxPkt
  st : RxLevelState
  delivered : List (Nat × Nat)
deriving Repr, DecidableEq

/-- The rx packet-number-space bookkeeping block of `qc_treat_rx_pkts`, run
on every packet that decrypts and parses: count ack-eliciting packets and
set `QUIC_FL_PKTNS_ACK_REQUIRED` on every even count, raise
`rx.largest_pn`, and insert the packet number into the ACK ranges. -/
def rxBookkeeping (st : RxLevelState) (pkt : RxPkt) : RxLevelState :=
  let st1 :=
    if pkt.ack_eliciting then
      { st with
        nb_ack_eliciting := st.nb_ack_eliciting + 1,
        ack_required := st.ack_required ∨ (st.nb_ack_eliciting + 1) % 2 = 0 }
    else st
  { st1 with
    largest_pn := if (pkt.pn : Int) > st1.largest_pn then (pkt.pn : Int) else st1.largest_pn,
    ack_ranges := quic_update_ack_ranges_list st1.ack_ranges (pkt.pn : Int) }

/-- The flag update performed by the frame walk on a freshly decrypted
packet: `qc_parse_hdshk_pkt` (long header) flags the packet out-of-order
when its CRYPTO frame offset differs from the level’s `rx.crypto.offset`;
`qc_parse_apkt` (short header) stores no CRYPTO information, so the
packet’s `qpkt->crypto.len` stays 0. -/
def parsedPktFlags (st : RxLevelState) (pkt : RxPkt) : RxPkt :=
  if pkt.long_header then
    { pkt with
      ooo := match pkt.crypto with
             | some (o, _) => decide (o ≠ st.crypto_offset)
             | none => false }
  else
    { pkt with crypto := none }

/-- `qc_treat_rx_pkts` (src/src/xprt_quic.c): walk the level's rx tree in
ascending packet-number order.  Packets not yet flagged out-of-order are
decrypted (dropped on failure), parsed (dropped on failure; the parse flags
the packet out-of-order when its CRYPTO offset differs from
`el->rx.crypto.offset`), and counted.  Then, flagged or not, a packet whose
stored CRYPTO offset equals `el->rx.crypto.offset` has its bytes passed to
the TLS stack — a failure there is the only error return — after which the
offset advances by the delivered length and the packet is freed; a packet
with pending CRYPTO at another offset stays in the tree; a packet with no
pending CRYPTO bytes is freed.  Side effects of parsed ACK frames on the tx
trees are outside this state and are modelled by `qc_parse_ack_frm`. -/
def qc_treat_rx_pkts (st : RxLevelState) : List RxPkt → TreatResult
  | [] => ⟨true, [], st, []⟩
  | pkt :: rest =>
    if pkt.ooo then
      -- already decrypted, parsed and counted by an earlier call
      treatCryptoPart st pkt rest
    else if ! pkt.decrypt_ok then
      -- "packet decryption failed -> dropped"
      qc_treat_rx_pkts st rest
    else if ! pkt.parse_ok then
      -- "packet parsing failed -> dropped"
      qc_treat_rx_pkts st rest
    else
      treatCryptoPart (rxBookkeeping st (parsedPktFlags st pkt)) (parsedPktFlags st pkt) rest
where
  /-- The `if (pkt->crypto.len)` tail of the loop body. -/
  treatCryptoPart (st : RxLevelState) (pkt : RxPkt) (rest : List RxPkt) : TreatResult :=
    match pkt.crypto with
    | some (o, l) =>
      if l ≠ 0 then
        if o = st.crypto_offset then
          if pkt.ssl_ok then
            let r := qc_treat_rx_pkts { st with crypto_offset := st.crypto_offset + l } rest
            ⟨r.ok, r.tree, r.st, (o, l) :: r.delivered⟩
          else
            -- "SSL_provide_quic_data() error": goto err, the packet stays
            ⟨false, pkt :: rest, st, []⟩
        else
          let r := qc_treat_rx_pkts st rest
          ⟨r.ok, pkt :: r.tree, r.st, r.delivered⟩
      else
        qc_treat_rx_pkts st rest
    | none => qc_treat_rx_pkts st rest

end Quic

namespace Quic

/-- Modelled from the spec: `quic_packet_number_length` is used by the packet
builders but lives in a header not under src/; the spec prescribes the
shortest length in 1..4 bytes that, combined with `rx.largest_acked_pn`,
decodes unambiguously. -/
def quic_packet_number_length (pn : Nat) (largest_acked_pn : Int) : Nat :=
  if (pn : Int) - largest_acked_pn < 2 ^ 7 then 1
  else if (pn : Int) - largest_acked_pn < 2 ^ 15 then 2
  else if (pn : Int) - largest_acked_pn < 2 ^ 23 then 3
  else 4

/-- Modelled from the spec: the encoded sizes of the `(gap, range)` tail of
an ACK frame built from the descending range list (delta-encoded gaps,
`gap = prev.first - r.last - 2` and `range = r.last - r.first` per the
largest-first walk). -/
def ackFrmTailLen : AckRange → List AckRange → Nat
  | _, [] => 0
  | prev, r :: rest =>
    quic_int_getsize (prev.first - r.last - 2).toNat
      + quic_int_getsize (r.last - r.first).toNat + ackFrmTailLen r rest

/-- Modelled from the spec: the length of the ACK frame that
`quic_do_build_ack_frame` (via the frame builder, which is not under src/)
serialises from a non-empty range list: the type byte, then varints for the
largest acknowledged pn, the ack delay (0), the range count, the first range,
and the `(gap, range)` pairs. -/
def quic_ack_frm_len : List AckRange → Nat
  | [] => 0
  | r0 :: rest =>
    1 + quic_int_getsize r0.last.toNat + quic_int_getsize 0
      + quic_int_getsize rest.length + quic_int_getsize (r0.last - r0.first).toNat
      + ackFrmTailLen r0 rest

/-- `QUIC_CRYPTO_IN_FLIGHT_MAX` (src/include/types/xprt_quic.h). -/
def QUIC_CRYPTO_IN_FLIGHT_MAX : Nat := 4096

/-- `QUIC_TLS_TAG_LEN` (src/include/types/quic_tls.h). -/
def QUIC_TLS_TAG_LEN : Nat := 16

/-- `QUIC_LONG_PACKET_MINLEN`: the fixed part of a long header (flags byte,
4-byte version, the two CID length bytes plus one byte of minimal length
field), from a header not under src/; the spec's long-header layout gives 7
bytes before the CIDs. -/
def QUIC_LONG_PACKET_MINLEN : Nat := 7

/-- `QUIC_INITIAL_PACKET_MINLEN`: minimum Initial packet size (spec,
section 6). -/
def QUIC_INITIAL_PACKET_MINLEN : Nat := 1200

/-- Modelled from the spec: `max_stream_data_size` (not under src/) bounds
the CRYPTO data of a packet by `min(available room, remaining packet budget,
requested)`: `sz` is the room left in the buffer, `ilen` the bytes of the
packet already accounted for, `dlen` the data available (already clamped by
the in-flight allowance by the caller). -/
def max_stream_data_size (sz ilen dlen : Nat) : Nat :=
  min dlen (sz - ilen)

/-- The packet-number-space inputs of `qc_do_build_hdshk_pkt` other than
`tx.next_pn` (which `qc_build_hdshk_pkt` shares with the connection tx
state). -/
structure BuildPktns where
  rx_largest_acked_pn : Int
  ack_required : Bool
  ack_ranges : List AckRange
deriving Repr, DecidableEq

/-- The remaining inputs of `qc_do_build_hdshk_pkt`: the room left in the
current output buffer (`end - pos`), the packet type, the connection CID
lengths, whether the connection target is a server (`objt_server`), the
CRYPTO stream offset `*offset` and the data length requested by the caller. -/
structure BuildIn where
  room : Nat
  is_initial : Bool
  dcid_len : Nat
  scid_len : Nat
  to_server : Bool
  offset : Nat
  crypto_len : Nat
deriving Repr, DecidableEq

/-- Outputs of `qc_do_build_hdshk_pkt`: the return value (`pos - beg`, `0`
for the in-flight early out, `-1` for `goto err`), the packet-number length,
the advanced CRYPTO stream offset (`*offset`; only advanced on the success
path), the CRYPTO data length put in the packet, the length of the ACK
frame built into the scratch buffer, and the ACK_REQUIRED flag as left in
the packet-number space. -/
structure BuildOut where
  ret : Int
  pn_len : Nat
  offset_next : Nat
  crypto_data_len : Nat
  ack_frm_len : Nat
  ack_required : Bool
deriving Repr, DecidableEq

/-- `qc_do_build_hdshk_pkt` (src/src/xprt_quic.c): build a clear handshake
packet.  The positions are byte counts from `beg`; stores are not tracked,
only the pointer arithmetic, the room checks and the state updates of the
source, in source order: in-flight clamp with early out, header room check,
long header and token byte, ACK frame into the scratch buffer (clearing
ACK_REQUIRED as soon as it is built), length computation and CRYPTO clamp,
Initial padding, length varint (return value ignored by the source),
packet-number encoding (likewise), ACK copy (no room check in the source),
CRYPTO frame build (errors out on insufficient room), PADDING frame build
(likewise), offset advance. -/
def qc_do_build_hdshk_pkt (bin : BuildIn) (pk : BuildPktns)
    (tx_next_pn crypto_in_flight : Nat) : BuildOut :=
  let clamped :=
    if bin.crypto_len > u64sub QUIC_CRYPTO_IN_FLIGHT_MAX crypto_in_flight then
      u64sub QUIC_CRYPTO_IN_FLIGHT_MAX crypto_in_flight
    else bin.crypto_len
  if bin.crypto_len ≠ 0 ∧ clamped = 0 then
    -- "ifcdada limit reached": goto out with pos = beg
    ⟨0, 0, bin.offset, 0, 0, pk.ack_required⟩
  else
    let frm_header_sz := if bin.crypto_len ≠ 0 then 1 + quic_int_getsize bin.offset else 0
    let token_fields_len := if bin.is_initial then 1 else 0
    if bin.room < QUIC_LONG_PACKET_MINLEN + bin.dcid_len + bin.scid_len + token_fields_len then
      ⟨-1, 0, bin.offset, 0, 0, pk.ack_required⟩
    else
      let pn := tx_next_pn + 1
      let pn_len := quic_packet_number_length pn pk.rx_largest_acked_pn
      -- quic_build_packet_long_header + the Initial token length byte
      let pos := 1 + 4 + 1 + bin.dcid_len + 1 + bin.scid_len + token_fields_len
      let buildAck := pk.ack_required ∧ pk.ack_ranges ≠ []
      let ack_frm_len := if buildAck then quic_ack_frm_len pk.ack_ranges else 0
      let ack_required := if buildAck then false else pk.ack_required
      let len0 := ack_frm_len + pn_len + frm_header_sz + QUIC_TLS_TAG_LEN
      let crypto_data_len :=
        if bin.crypto_len ≠ 0 then max_stream_data_size (bin.room - pos) len0 clamped else 0
      let len1 :=
        if bin.crypto_len ≠ 0 then len0 + quic_int_getsize crypto_data_len + crypto_data_len
        else len0
      let padding_len :=
        if bin.to_server ∧ bin.is_initial ∧ len1 < QUIC_INITIAL_PACKET_MINLEN then
          QUIC_INITIAL_PACKET_MINLEN - len1
        else 0
      -- quic_enc_int's and quic_packet_number_encode's returns are ignored;
      -- they advance pos only when they fit
      let pos := match quic_enc_int (bin.room - pos) (len1 + padding_len) with
                 | some bs => pos + bs.length
                 | none => pos
      let pos := if pn_len ≤ bin.room - pos then pos + pn_len else pos
      let pos := pos + ack_frm_len
      let crypto_frm_sz := 1 + quic_int_getsize bin.offset
                             + quic_int_getsize crypto_data_len + crypto_data_len
      if bin.crypto_len ≠ 0 ∧ bin.room - pos < crypto_frm_sz then
        ⟨-1, pn_len, bin.offset, crypto_data_len, ack_frm_len, ack_required⟩
      else
        let pos := if bin.crypto_len ≠ 0 then pos + crypto_frm_sz else pos
        if padding_len ≠ 0 ∧ bin.room - pos < padding_len then
          ⟨-1, pn_len, bin.offset, crypto_data_len, ack_frm_len, ack_required⟩
        else
          let pos := pos + padding_len
          ⟨(pos : Int), pn_len, bin.offset + crypto_data_len, crypto_data_len,
           ack_frm_len, ack_required⟩

/-- `qc_build_hdshk_pkt` (src/src/xprt_quic.c) acting on the connection tx
state: run `qc_do_build_hdshk_pkt`; on a positive return encrypt and protect
the packet (`encrypt_ok` and `hp_ok` abstract the external cipher calls; a
failure returns -2 with nothing committed), then commit: consume a packet
number, record the emitted CRYPTO frame in the outgoing tree keyed by the
new packet number, and add its length to `crypto_in_flight`.  The new
ACK_REQUIRED flag value is returned alongside since `qc_do_build_hdshk_pkt`
may have cleared it whatever the outcome. -/
def qc_build_hdshk_pkt (st : ConnTxState) (bin : BuildIn) (pk : BuildPktns)
    (encrypt_ok hp_ok : Bool) : Int × ConnTxState × Bool :=
  let out := qc_do_build_hdshk_pkt bin pk st.tx_next_pn st.crypto_in_flight
  if out.ret ≤ 0 then (out.ret, st, out.ack_required)
  else if ! encrypt_ok then (-2, st, out.ack_required)
  else if ! hp_ok then (-2, st, out.ack_required)
  else
    let next_pn := st.tx_next_pn + 1
    if out.offset_next - bin.offset ≠ 0 then
      (out.ret + (QUIC_TLS_TAG_LEN : Int),
       { st with
         frms := st.frms ++ [⟨next_pn, bin.offset, out.offset_next - bin.offset⟩],
         crypto_in_flight := st.crypto_in_flight + (out.offset_next - bin.offset),
         tx_next_pn := next_pn },
       out.ack_required)
    else
      (out.ret + (QUIC_TLS_TAG_LEN : Int), { st with tx_next_pn := next_pn }, out.ack_required)

/-- The bookkeeping invariant tying `crypto_in_flight` to the outgoing CRYPTO
tree: the counter equals the sum of the recorded frame lengths, that sum
never exceeds `QUIC_CRYPTO_IN_FLIGHT_MAX`, the tree is in strictly ascending
packet-number order, and every recorded packet number has been consumed. -/
def TxInvariant (st : ConnTxState) : Prop :=
  st.crypto_in_flight = sumLens st.frms ∧
  sumLens st.frms ≤ QUIC_CRYPTO_IN_FLIGHT_MAX ∧
  List.Pairwise (fun a b => a.pn < b.pn) st.frms ∧
  ∀ f ∈ st.frms, f.pn ≤ st.tx_next_pn

/-- The reachable tx states of a connection level: the fresh connection
(empty trees, `crypto_in_flight` 0, no packet number consumed, no ACK
received), followed by any interleaving of handshake-packet build attempts
(`qc_build_hdshk_pkt` with arbitrary buffer room, CRYPTO request — fresh or
retransmitted data, since the offset is the caller's — and cipher outcomes)
and successfully parsed ACK frames (`qc_parse_ack_frm`). -/
inductive QuicTxReachable : ConnTxState → Prop
  | init : QuicTxReachable ⟨[], [], 0, false, 0, -1⟩
  | build (st : ConnTxState) (bin : BuildIn) (pk : BuildPktns) (e hp : Bool) :
      QuicTxReachable st → QuicTxReachable (qc_build_hdshk_pkt st bin pk e hp).2.1
  | ack (st st2 : ConnTxState) (ack : AckFrm) :
      QuicTxReachable st → qc_parse_ack_frm st ack = some st2 → QuicTxReachable st2

end Quic

namespace Quic

/-- `enum h3_cs` values (src/src/mux_h3.c). -/
def H3_CS_FRAME_H : Nat := 2

/-- `H3_CS_FRAME_E` (src/src/mux_h3.c). -/
def H3_CS_FRAME_E : Nat := 5

/-- `H3_CS_ERROR` (src/src/mux_h3.c). -/
def H3_CS_ERROR : Nat := 6

/-- `enum h3_ss` values (src/src/mux_h3.c). -/
def H3_SS_OPEN : Nat := 3

/-- `H3_SS_ERROR` (src/src/mux_h3.c). -/
def H3_SS_ERROR : Nat := 6

/-- `H3_SS_CLOSED` (src/src/mux_h3.c). -/
def H3_SS_CLOSED : Nat := 7

/-- Modelled from the spec: the `enum h3_err` codes live in a header not
under src/; the spec's application error taxonomy follows the HTTP/2 error
codes, `PROTOCOL_ERROR` being 1. -/
def H3_ERR_PROTOCOL_ERROR : Nat := 1

/-- Modelled from the spec: `FLOW_CONTROL_ERROR` application error code (3). -/
def H3_ERR_FLOW_CONTROL_ERROR : Nat := 3

/-- The fields of `struct h3c` (src/src/mux_h3.c) read or written by
`h3c_handle_window_update`: the mux state, the error code, the connection
send window `mws`, the initial window `miw` and the demux stream id `dsi`.
The window fields are C `int`/`int32_t` values. -/
structure H3c where
  st0 : Nat
  errcode : Nat
  mws : Int
  miw : Int
  dsi : Int
deriving Repr, DecidableEq

/-- The fields of `struct h3s` (src/src/mux_h3.c) read or written by
`h3c_handle_window_update`: stream id, stream state, per-stream window `sws`
and the stream error code. -/
structure H3s where
  id : Int
  st : Nat
  sws : Int
  errcode : Nat
deriving Repr, DecidableEq

/-- `h3s_mws` (src/src/mux_h3.c): the effective stream window
`h3s->sws + h3s->h3c->miw`, a C `int` sum. -/
def h3s_mws (h3c : H3c) (h3s : H3s) : Int := i32 (h3s.sws + h3c.miw)

/-- `h3c_error` (src/src/mux_h3.c). -/
def h3c_error (h3c : H3c) (err : Nat) : H3c :=
  { h3c with errcode := err, st0 := H3_CS_ERROR }

/-- `h3s_error` (src/src/mux_h3.c): mark a stream error unless the stream is
the connection pseudo-stream or already errored; only forward state moves
reach `H3_SS_ERROR`. -/
def h3s_error (h3s : H3s) (err : Nat) : H3s :=
  if h3s.id ≠ 0 ∧ h3s.st ≠ H3_SS_ERROR then
    { h3s with
      errcode := err,
      st := if h3s.st < H3_SS_ERROR then H3_SS_ERROR else h3s.st }
  else h3s

/-- `h3c_handle_window_update` (src/src/mux_h3.c) on a fully received frame:
`inc` is the `int32_t` read of the 4-byte payload (`h3_get_n32` assigned to
a signed 32-bit `inc`).  Returns the new connection and stream states and
the C return value; the requeueing of a previously flow-control-blocked
stream on the send list touches no field modelled here. -/
def h3c_handle_window_update (h3c : H3c) (h3s : H3s) (inc : Int) : H3c × H3s × Int :=
  if h3c.dsi ≠ 0 then
    if h3s.st = H3_SS_CLOSED then (h3c, h3s, 1)
    else if inc = 0 then
      ({ h3c with st0 := H3_CS_FRAME_E }, h3s_error h3s H3_ERR_PROTOCOL_ERROR, 0)
    else if h3s_mws h3c h3s ≥ 0 ∧ i32 (h3s_mws h3c h3s + inc) < 0 then
      ({ h3c with st0 := H3_CS_FRAME_E }, h3s_error h3s H3_ERR_FLOW_CONTROL_ERROR, 0)
    else
      (h3c, { h3s with sws := i32 (h3s.sws + inc) }, 1)
  else
    if inc = 0 then (h3c_error h3c H3_ERR_PROTOCOL_ERROR, h3s, 0)
    else if h3c.mws ≥ 0 ∧ i32 (h3c.mws + inc) < 0 then
      (h3c_error h3c H3_ERR_FLOW_CONTROL_ERROR, h3s, 0)
    else
      ({ h3c with mws := i32 (h3c.mws + inc) }, h3s, 1)

end Quic

namespace Quic

theorem lor_mul_pow (a b n : Nat) (h : b < 2 ^ n) : (a * 2 ^ n) ||| b = a * 2 ^ n + b := by
  rw [Nat.mul_comm]
  exact (Nat.mul_add_lt_is_or h a).symm

theorem and_u64compl_mask (x n : Nat) (hx : x < 2 ^ 64) (hn : n ≤ 64) :
    x &&& u64compl (2 ^ n - 1) = x / 2 ^ n * 2 ^ n := by
  unfold u64compl
  have hmask : 2 ^ 64 - 1 - (2 ^ n - 1) = 2 ^ n * (2 ^ (64 - n) - 1) := by
    have h1 : 2 ^ 64 = 2 ^ n * 2 ^ (64 - n) := by
      rw [← pow_add]
      congr 1
      omega
    have h2 : (1 : Nat) ≤ 2 ^ n := Nat.one_le_two_pow
    have h3 : (1 : Nat) ≤ 2 ^ (64 - n) := Nat.one_le_two_pow
    rw [h1, Nat.mul_sub]
    omega
  rw [hmask]
  apply Nat.eq_of_testBit_eq
  intro j
  rw [Nat.testBit_and, Nat.testBit_mul_pow_two]
  rw [show x / 2 ^ n * 2 ^ n = 2 ^ n * (x / 2 ^ n) by ring]
  rw [Nat.testBit_mul_pow_two]
  by_cases hj : n ≤ j
  · have hge : j ≥ n := hj
    simp only [ge_iff_le, hge, decide_True, Bool.true_and]
    have hdiv : (x / 2 ^ n).testBit (j - n) = x.testBit j := by
      have hexp : n + (j - n) = j := by omega
      rw [Nat.testBit_to_div_mod, Nat.testBit_to_div_mod, Nat.div_div_eq_div_mul, ← pow_add,
        hexp]
    rw [hdiv, Nat.testBit_two_pow_sub_one]
    by_cases hj64 : j < 64
    · have hlt : j - n < 64 - n := by omega
      simp [hlt]
    · have h1 : ¬ (j - n < 64 - n) := by omega
      have h2 : x.testBit j = false :=
        Nat.testBit_lt_two_pow
          (lt_of_lt_of_le hx (Nat.pow_le_pow_right (by norm_num) (by omega)))
      simp [h1, h2]
  · have hlt : ¬ j ≥ n := hj
    simp [hlt]

theorem window_arith (e w t res : Nat) (hw2 : w = 2 * (w / 2)) (h2 : 1 ≤ w / 2)
    (ht : t < w) (hhe : w / 2 ≤ e)
    (hres : res = if e / w * w + t + w / 2 ≤ e then e / w * w + t + w
            else if e + w / 2 < e / w * w + t ∧ w < e / w * w + t then e / w * w + t - w
            else e / w * w + t) :
    res % w = t ∧ e - w / 2 < res ∧ res ≤ e + w / 2 := by
  have hwpos : 0 < w := by omega
  have hcle : e / w * w ≤ e := Nat.div_mul_le_self e w
  have hd : e / w * w + e % w = e := by
    rw [Nat.mul_comm]
    exact Nat.div_add_mod e w
  have hclt : e < e / w * w + w := by
    have hm := Nat.mod_lt e hwpos
    omega
  have hmod0 : (e / w * w + t) % w = t := by
    rw [show e / w * w + t = t + e / w * w by ring, Nat.add_mul_mod_self_right,
      Nat.mod_eq_of_lt ht]
  rw [hres]
  split_ifs with hc1 hc2
  · refine ⟨?_, by omega, by omega⟩
    rw [show e / w * w + t + w = t + (e / w + 1) * w by ring, Nat.add_mul_mod_self_right,
      Nat.mod_eq_of_lt ht]
  · obtain ⟨hc2a, hc2b⟩ := hc2
    have hq1 : 1 ≤ e / w := by
      rcases Nat.eq_zero_or_pos (e / w) with h0 | h1
      · rw [h0, Nat.zero_mul] at hc2b
        omega
      · exact h1
    have hwle : w ≤ e / w * w := by
      calc w = 1 * w := by ring
      _ ≤ e / w * w := Nat.mul_le_mul_right w hq1
    refine ⟨?_, by omega, by omega⟩
    rw [show e / w * w + t - w = t + (e / w - 1) * w by
        rw [Nat.sub_mul, Nat.one_mul]; omega,
      Nat.add_mul_mod_self_right, Nat.mod_eq_of_lt ht]
  · have hup : e / w * w + t ≤ e + w / 2 := by
      by_cases hcw : w < e / w * w + t
      · have hA : ¬ (e + w / 2 < e / w * w + t) := fun hA => hc2 ⟨hA, hcw⟩
        omega
      · omega
    exact ⟨hmod0, by omega, by omega⟩

/-- C4: `decode_packet_number` computes `expected = largest_pn + 1`,
`win = 2 ^ pn_nbits`, `hwin = win / 2`,
`candidate = (expected & ~(win - 1)) | truncated_pn` and shifts the candidate
by `±win` so that, whenever the window fits (`hwin ≤ expected`, always the
case for the packet numbers and 8/16/24/32-bit encodings the callers use),
the result is congruent to the truncated value and lands in
`(expected - hwin, expected + hwin]`; in particular decoding `0x01` against
largest `0xAAF0` with 8 packet-number bits yields `0xAB01`. -/
theorem decode_packet_number_candidate (largest truncated nbits : Nat)
    (hl : largest < 2 ^ 62) (hn : 0 < nbits) (hb : nbits ≤ 32)
    (ht : truncated < 2 ^ nbits) (hhe : 2 ^ nbits / 2 ≤ largest + 1) :
    decode_packet_number largest truncated nbits % 2 ^ nbits = truncated ∧
    largest + 1 - 2 ^ nbits / 2 < decode_packet_number largest truncated nbits ∧
    decode_packet_number largest truncated nbits ≤ largest + 1 + 2 ^ nbits / 2 ∧
    decode_packet_number 0xAAF0 0x01 8 = 0xAB01 := by
  have hconc : decode_packet_number 0xAAF0 0x01 8 = 0xAB01 := by decide
  have hcand : ((largest + 1) &&& u64compl (2 ^ nbits - 1)) ||| truncated
      = (largest + 1) / 2 ^ nbits * 2 ^ nbits + truncated := by
    rw [and_u64compl_mask (largest + 1) nbits (by omega) (by omega)]
    exact lor_mul_pow _ _ _ ht
  have hw2 : 2 ^ nbits = 2 * (2 ^ nbits / 2) := by
    have : 2 ^ nbits = 2 * 2 ^ (nbits - 1) := by
      rw [← pow_succ']
      congr 1
      omega
    omega
  have h2 : 1 ≤ 2 ^ nbits / 2 := by
    have : (2 : Nat) ≤ 2 ^ nbits := by
      calc (2 : Nat) = 2 ^ 1 := by norm_num
      _ ≤ 2 ^ nbits := Nat.pow_le_pow_right (by norm_num) hn
    omega
  have hmain := window_arith (largest + 1) (2 ^ nbits) truncated
    (decode_packet_number largest truncated nbits) hw2 h2 ht hhe ?_
  · exact ⟨hmain.1, hmain.2.1, hmain.2.2, hconc⟩
  · show decode_packet_number largest truncated nbits = _
    simp only [decode_packet_number, Nat.one_shiftLeft]
    rw [hcand]

/-- Witness for C4 at the spec's concrete scenario. -/
theorem decode_packet_number_candidate_holds :
    decode_packet_number 0xAAF0 0x01 8 % 2 ^ 8 = 0x01 ∧
    0xAAF0 + 1 - 2 ^ 8 / 2 < decode_packet_number 0xAAF0 0x01 8 ∧
    decode_packet_number 0xAAF0 0x01 8 ≤ 0xAAF0 + 1 + 2 ^ 8 / 2 ∧
    decode_packet_number 0xAAF0 0x01 8 = 0xAB01 :=
  decode_packet_number_candidate 0xAAF0 0x01 8 (by norm_num) (by norm_num) (by norm_num)
    (by norm_num) (by norm_num)

end Quic

namespace Quic

theorem and63_eq_mod (n : Nat) : n &&& 63 = n % 64 := by
  have h := Nat.and_pow_two_sub_one_eq_mod n 6
  norm_num at h
  exact h

theorem u8_eq_mod (x : Nat) : u8 x = x % 256 := rfl

theorem quicdec_cons (b : Nat) (rest : List Nat) :
    quic_dec_int (b :: rest)
      = if rest.length + 1 < 1 <<< (b >>> 6) then none
        else some ((rest.take (1 <<< (b >>> 6) - 1)).foldl
                     (fun ret byte => (ret <<< 8) ||| byte) (b &&& 63),
                   rest.drop (1 <<< (b >>> 6) - 1)) := rfl

theorem dec_fold_step (acc b : Nat) (l : List Nat) (hb : b < 256) :
    List.foldl (fun ret byte => (ret <<< 8) ||| byte) acc (b :: l)
      = List.foldl (fun ret byte => (ret <<< 8) ||| byte) (acc * 256 + b) l := by
  have h : (acc <<< 8) ||| b = acc * 256 + b := by
    rw [Nat.shiftLeft_eq]
    have := lor_mul_pow acc b 8 (by norm_num [hb])
    norm_num at this ⊢
    exact this
  simp only [List.foldl, h]

theorem or_tag (a x n : Nat) (hx : x < 2 ^ n) : (a * 2 ^ n) ||| x = a * 2 ^ n + x :=
  lor_mul_pow a x n hx

end Quic

namespace Quic

theorem shiftRight_div (v s : Nat) : v >>> s = v / 2 ^ s := Nat.shiftRight_eq_div_pow v s

theorem u8_lt (x : Nat) : u8 x < 256 := by
  rw [u8_eq_mod]
  omega

theorem or_tag64 (c a : Nat) (hc : ∃ k, c = k * 2 ^ 6) (ha : a < 2 ^ 6) : c ||| a = c + a := by
  obtain ⟨k, hk⟩ := hc
  rw [hk]
  exact lor_mul_pow k a 6 ha

theorem enc_dec_len1 (v : Nat) (hv : v < 2 ^ 6) (extra : List Nat) :
    quic_dec_int (u8 v :: extra) = some (v, extra) := by
  have hb0 : u8 v = v := by
    rw [u8_eq_mod]
    omega
  rw [hb0, quicdec_cons]
  have hsh : v >>> 6 = 0 := by
    rw [shiftRight_div]
    omega
  rw [hsh]
  have h1 : (1 : Nat) <<< 0 = 1 := rfl
  rw [h1, if_neg (by omega)]
  have htake : List.take (1 - 1) extra = [] := rfl
  have hdrop : List.drop (1 - 1) extra = extra := rfl
  rw [htake, hdrop]
  simp only [List.foldl_nil]
  rw [and63_eq_mod, Nat.mod_eq_of_lt (show v < 64 by omega)]

theorem enc_dec_len2 (v : Nat) (h1 : 2 ^ 6 ≤ v) (h2 : v < 2 ^ 14) (extra : List Nat) :
    quic_dec_int (u8 (0x40 ||| (v >>> 8)) :: u8 v :: extra) = some (v, extra) := by
  have hsh8 : v >>> 8 = v / 256 := by
    rw [shiftRight_div]
    norm_num
  have hdlt : v / 256 < 2 ^ 6 := by
    have : v / 256 < 64 := by omega
    simpa using this
  have hb0 : u8 (0x40 ||| (v >>> 8)) = 64 + v / 256 := by
    rw [hsh8, or_tag64 0x40 (v / 256) ⟨1, by norm_num⟩ hdlt, u8_eq_mod]
    have : v / 256 < 64 := by simpa using hdlt
    omega
  rw [hb0, quicdec_cons]
  have hsh6 : (64 + v / 256) >>> 6 = 1 := by
    rw [shiftRight_div]
    have : v / 256 < 64 := by simpa using hdlt
    norm_num
    omega
  rw [hsh6]
  have hlen : (1 : Nat) <<< 1 = 2 := rfl
  rw [hlen, if_neg (by simp only [List.length_cons]; omega)]
  have htake : List.take (2 - 1) (u8 v :: extra) = [u8 v] := rfl
  have hdrop : List.drop (2 - 1) (u8 v :: extra) = extra := rfl
  rw [htake, hdrop, and63_eq_mod, dec_fold_step _ _ _ (u8_lt v)]
  simp only [List.foldl_nil]
  rw [u8_eq_mod]
  have hval : (64 + v / 256) % 64 * 256 + v % 256 = v := by omega
  rw [hval]

end Quic

namespace Quic

theorem enc_dec_len4 (v : Nat) (h1 : 2 ^ 14 ≤ v) (h2 : v < 2 ^ 30) (extra : List Nat) :
    quic_dec_int (u8 (0x80 ||| (v >>> 24)) :: u8 (v >>> 16) :: u8 (v >>> 8) :: u8 v :: extra)
      = some (v, extra) := by
  have hsh24 : v >>> 24 = v / 2 ^ 24 := shiftRight_div v 24
  have hsh16 : v >>> 16 = v / 2 ^ 16 := shiftRight_div v 16
  have hsh8 : v >>> 8 = v / 2 ^ 8 := shiftRight_div v 8
  have hdlt : v / 2 ^ 24 < 2 ^ 6 := by omega
  have hb0 : u8 (0x80 ||| (v >>> 24)) = 128 + v / 2 ^ 24 := by
    rw [hsh24, or_tag64 0x80 (v / 2 ^ 24) ⟨2, by norm_num⟩ hdlt, u8_eq_mod]
    omega
  rw [hb0, quicdec_cons]
  have hsh6 : (128 + v / 2 ^ 24) >>> 6 = 2 := by
    rw [shiftRight_div]
    norm_num
    omega
  rw [hsh6]
  have hlen : (1 : Nat) <<< 2 = 4 := rfl
  rw [hlen, if_neg (by simp only [List.length_cons]; omega)]
  have htake : List.take (4 - 1) (u8 (v >>> 16) :: u8 (v >>> 8) :: u8 v :: extra)
      = [u8 (v >>> 16), u8 (v >>> 8), u8 v] := rfl
  have hdrop : List.drop (4 - 1) (u8 (v >>> 16) :: u8 (v >>> 8) :: u8 v :: extra) = extra := rfl
  rw [htake, hdrop, and63_eq_mod, dec_fold_step _ _ _ (u8_lt (v >>> 16)),
    dec_fold_step _ _ _ (u8_lt (v >>> 8)), dec_fold_step _ _ _ (u8_lt v)]
  simp only [List.foldl_nil]
  rw [hsh16, hsh8]
  simp only [u8_eq_mod]
  have hval : (((128 + v / 2 ^ 24) % 64 * 256 + v / 2 ^ 16 % 256) * 256
      + v / 2 ^ 8 % 256) * 256 + v % 256 = v := by omega
  rw [hval]

theorem enc_dec_len8 (v : Nat) (h1 : 2 ^ 30 ≤ v) (h2 : v < 2 ^ 62) (extra : List Nat) :
    quic_dec_int (u8 (0xc0 ||| (v >>> 56)) :: u8 (v >>> 48) :: u8 (v >>> 40)
        :: u8 (v >>> 32) :: u8 (v >>> 24) :: u8 (v >>> 16) :: u8 (v >>> 8) :: u8 v :: extra)
      = some (v, extra) := by
  have hsh56 : v >>> 56 = v / 2 ^ 56 := shiftRight_div v 56
  have hdlt : v / 2 ^ 56 < 2 ^ 6 := by omega
  have hb0 : u8 (0xc0 ||| (v >>> 56)) = 192 + v / 2 ^ 56 := by
    rw [hsh56, or_tag64 0xc0 (v / 2 ^ 56) ⟨3, by norm_num⟩ hdlt, u8_eq_mod]
    omega
  rw [hb0, quicdec_cons]
  have hsh6 : (192 + v / 2 ^ 56) >>> 6 = 3 := by
    rw [shiftRight_div]
    norm_num
    omega
  rw [hsh6]
  have hlen : (1 : Nat) <<< 3 = 8 := rfl
  rw [hlen, if_neg (by simp only [List.length_cons]; omega)]
  have htake : List.take (8 - 1) (u8 (v >>> 48) :: u8 (v >>> 40) :: u8 (v >>> 32)
        :: u8 (v >>> 24) :: u8 (v >>> 16) :: u8 (v >>> 8) :: u8 v :: extra)
      = [u8 (v >>> 48), u8 (v >>> 40), u8 (v >>> 32), u8 (v >>> 24), u8 (v >>> 16),
         u8 (v >>> 8), u8 v] := rfl
  have hdrop : List.drop (8 - 1) (u8 (v >>> 48) :: u8 (v >>> 40) :: u8 (v >>> 32)
        :: u8 (v >>> 24) :: u8 (v >>> 16) :: u8 (v >>> 8) :: u8 v :: extra) = extra := rfl
  rw [htake, hdrop, and63_eq_mod, dec_fold_step _ _ _ (u8_lt (v >>> 48)),
    dec_fold_step _ _ _ (u8_lt (v >>> 40)), dec_fold_step _ _ _ (u8_lt (v >>> 32)),
    dec_fold_step _ _ _ (u8_lt (v >>> 24)), dec_fold_step _ _ _ (u8_lt (v >>> 16)),
    dec_fold_step _ _ _ (u8_lt (v >>> 8)), dec_fold_step _ _ _ (u8_lt v)]
  simp only [List.foldl_nil]
  rw [shiftRight_div v 48, shiftRight_div v 40, shiftRight_div v 32, shiftRight_div v 24,
    shiftRight_div v 16, shiftRight_div v 8]
  simp only [u8_eq_mod]
  have hval : (((((((192 + v / 2 ^ 56) % 64 * 256 + v / 2 ^ 48 % 256) * 256
      + v / 2 ^ 40 % 256) * 256 + v / 2 ^ 32 % 256) * 256 + v / 2 ^ 24 % 256) * 256
      + v / 2 ^ 16 % 256) * 256 + v / 2 ^ 8 % 256) * 256 + v % 256 = v := by omega
  rw [hval]

end Quic

namespace Quic

/-- C8: `quic_enc_int` writes, for every value below `2^62` and enough output
room, an encoding of the smallest of the lengths 1, 2, 4, 8 that fits the
value, and `quic_dec_int` applied to those bytes (followed by anything)
returns exactly the value and consumes exactly those bytes; `quic_enc_int`
fails on every value `≥ 2^62` and whenever the room is smaller than the
chosen length; `quic_dec_int` fails on an empty input and whenever the input
holds fewer bytes than the length announced by the top two bits of the first
byte. -/
theorem quic_enc_dec_int_spec :
    (∀ v room extra, v < 2 ^ 62 → quic_int_getsize v ≤ room →
      ∃ bs, quic_enc_int room v = some bs ∧ bs.length = quic_int_getsize v ∧
        quic_dec_int (bs ++ extra) = some (v, extra)) ∧
    (∀ v room, 2 ^ 62 ≤ v → quic_enc_int room v = none) ∧
    (∀ v room, v < 2 ^ 62 → room < quic_int_getsize v → quic_enc_int room v = none) ∧
    (∀ b rest, List.length (b :: rest) < 1 <<< (b >>> QUIC_VARINT_BYTE_0_SHIFT) →
      quic_dec_int (b :: rest) = none) ∧
    quic_dec_int [] = none := by
  refine ⟨?succ, ?big, ?room, ?short, rfl⟩
  case succ =>
    intro v room extra hv hroom
    unfold quic_enc_int quic_int_getsize at *
    by_cases h30 : 2 ^ 30 ≤ v
    · rw [if_pos ⟨h30, by omega⟩]
      have hs : ¬ v < 2 ^ 6 := by omega
      have hs2 : ¬ v < 2 ^ 14 := by omega
      have hs3 : ¬ v < 2 ^ 30 := by omega
      simp only [hs, hs2, hs3, if_false] at hroom ⊢
      rw [if_neg (by omega)]
      refine ⟨_, rfl, by simp, ?_⟩
      simp only [List.cons_append, List.nil_append]
      exact enc_dec_len8 v h30 hv extra
    · by_cases h14 : 2 ^ 14 ≤ v
      · rw [if_neg (by omega), if_pos ⟨h14, by omega⟩]
        have hs : ¬ v < 2 ^ 6 := by omega
        have hs2 : ¬ v < 2 ^ 14 := by omega
        have hs3 : v < 2 ^ 30 := by omega
        simp only [hs, hs2, hs3, if_false, if_true] at hroom ⊢
        rw [if_neg (by omega)]
        refine ⟨_, rfl, by simp, ?_⟩
        simp only [List.cons_append, List.nil_append]
        exact enc_dec_len4 v h14 (by omega) extra
      · by_cases h6 : 2 ^ 6 ≤ v
        · rw [if_neg (by omega), if_neg (by omega), if_pos ⟨h6, by omega⟩]
          have hs : ¬ v < 2 ^ 6 := by omega
          have hs2 : v < 2 ^ 14 := by omega
          simp only [hs, hs2, if_false, if_true] at hroom ⊢
          rw [if_neg (by omega)]
          refine ⟨_, rfl, by simp, ?_⟩
          simp only [List.cons_append, List.nil_append]
          exact enc_dec_len2 v h6 (by omega) extra
        · rw [if_neg (by omega), if_neg (by omega), if_neg (by omega), if_pos (by omega)]
          have hs : v < 2 ^ 6 := by omega
          simp only [hs, if_true] at hroom ⊢
          rw [if_neg (by omega)]
          refine ⟨_, rfl, by simp, ?_⟩
          simp only [List.cons_append, List.nil_append]
          exact enc_dec_len1 v hs extra
  case big =>
    intro v room hv
    unfold quic_enc_int
    rw [if_neg (by omega), if_neg (by omega), if_neg (by omega), if_neg (by omega)]
  case room =>
    intro v room hv hroom
    unfold quic_enc_int
    by_cases h30 : 2 ^ 30 ≤ v
    · have hg : quic_int_getsize v = 8 := by
        unfold quic_int_getsize
        rw [if_neg (by omega), if_neg (by omega), if_neg (by omega)]
      rw [hg] at hroom
      rw [if_pos ⟨h30, by omega⟩, if_pos hroom]
    · by_cases h14 : 2 ^ 14 ≤ v
      · have hg : quic_int_getsize v = 4 := by
          unfold quic_int_getsize
          rw [if_neg (by omega), if_neg (by omega), if_pos (by omega)]
        rw [hg] at hroom
        rw [if_neg (by omega), if_pos ⟨h14, by omega⟩, if_pos hroom]
      · by_cases h6 : 2 ^ 6 ≤ v
        · have hg : quic_int_getsize v = 2 := by
            unfold quic_int_getsize
            rw [if_neg (by omega), if_pos (by omega)]
          rw [hg] at hroom
          rw [if_neg (by omega), if_neg (by omega), if_pos ⟨h6, by omega⟩, if_pos hroom]
        · have hg : quic_int_getsize v = 1 := by
            unfold quic_int_getsize
            rw [if_pos (by omega)]
          rw [hg] at hroom
          rw [if_neg (by omega), if_neg (by omega), if_neg (by omega), if_pos (by omega),
            if_pos hroom]
  case short =>
    intro b rest hlen
    have h6 : QUIC_VARINT_BYTE_0_SHIFT = 6 := rfl
    rw [h6] at hlen
    simp only [List.length_cons] at hlen
    rw [quicdec_cons, if_pos (by omega)]

/-- Witness for C8, instantiated at value 300 with two bytes of room and a
trailing byte. -/
theorem quic_enc_dec_int_spec_holds :
    ∃ bs, quic_enc_int 2 300 = some bs ∧ bs.length = quic_int_getsize 300 ∧
      quic_dec_int (bs ++ [7]) = some (300, [7]) :=
  quic_enc_dec_int_spec.1 300 2 [7] (by norm_num) (by norm_num [quic_int_getsize])

end Quic

namespace Quic

/-- C10 (code bug): the only length precondition of `qc_do_rm_hp` accepts a
packet with only 9 bytes from the packet-number field to the packet end,
although the 16-byte header-protection sample it then reads at
`pn + QUIC_PACKET_PN_MAXLEN` needs 20 such bytes: at `tail = 9` the check
passes while the sample runs 11 bytes past the end of the packet. -/
theorem qc_do_rm_hp_sample_oob :
    qc_do_rm_hp_len_check 9 = true ∧ qc_do_rm_hp_sample_in_bounds 9 = false ∧
    qc_do_rm_hp_sample_in_bounds 19 = false ∧ qc_do_rm_hp_len_check 19 = true := by
  decide

theorem cover_nil (x : Int) : ¬ rangesCover [] x := by
  simp [rangesCover]

theorem cover_cons (r : AckRange) (l : List AckRange) (x : Int) :
    rangesCover (r :: l) x ↔ (r.first ≤ x ∧ x ≤ r.last) ∨ rangesCover l x := by
  simp [rangesCover]

theorem update_nil (pn : Int) : quic_update_ack_ranges_list [] pn = [⟨pn, pn⟩] := rfl

theorem update_cons_nil (curr : AckRange) (pn : Int) :
    quic_update_ack_ranges_list [curr] pn =
      if pn ≥ curr.first ∧ pn ≤ curr.last then [curr]
      else if pn > curr.last + 1 then [⟨pn, pn⟩, curr]
      else if curr.last + 1 = pn then [⟨curr.first, pn⟩]
      else if curr.first = pn + 1 then [⟨pn, curr.last⟩]
      else [curr, ⟨pn, pn⟩] := rfl

theorem update_cons_cons (curr next : AckRange) (rest2 : List AckRange) (pn : Int) :
    quic_update_ack_ranges_list (curr :: next :: rest2) pn =
      if pn ≥ curr.first ∧ pn ≤ curr.last then curr :: next :: rest2
      else if pn > curr.last + 1 then ⟨pn, pn⟩ :: curr :: next :: rest2
      else if curr.last + 1 = pn then ⟨curr.first, pn⟩ :: next :: rest2
      else if curr.first = pn + 1 then
        if pn = next.last + 1 then ⟨next.first, curr.last⟩ :: rest2
        else ⟨pn, curr.last⟩ :: next :: rest2
      else curr :: quic_update_ack_ranges_list (next :: rest2) pn := rfl

theorem chain_all_below (curr : AckRange) (rest : List AckRange)
    (hf : ∀ r ∈ rest, r.first ≤ r.last)
    (hc : List.Chain' (fun a b => b.last + 1 < a.first) (curr :: rest)) :
    ∀ r ∈ rest, r.last + 1 < curr.first := by
  induction rest generalizing curr with
  | nil => simp
  | cons next rest2 ih =>
    intro r hr
    rw [List.chain'_cons] at hc
    rcases List.mem_cons.mp hr with h | h
    · exact h ▸ hc.1
    · have hnext := ih next (fun r hr => hf r (List.mem_cons_of_mem _ hr)) hc.2 r h
      have h1 : next.first ≤ next.last := hf next (List.mem_cons_self _ _)
      have h2 : next.last + 1 < curr.first := hc.1
      omega

theorem update_last_lt (l : List AckRange) (pn B : Int)
    (hB : ∀ r ∈ l, r.last + 1 < B) (hpn : pn + 1 < B) :
    ∀ r ∈ quic_update_ack_ranges_list l pn, r.last + 1 < B := by
  induction l with
  | nil =>
    rw [update_nil]
    intro r hr
    rw [List.mem_singleton] at hr
    rw [hr]
    dsimp only
    omega
  | cons curr rest ih =>
    have hcurr : curr.last + 1 < B := hB curr (List.mem_cons_self _ _)
    have hrest : ∀ r ∈ rest, r.last + 1 < B := fun r hr => hB r (List.mem_cons_of_mem _ hr)
    intro r hr
    cases rest with
    | nil =>
      rw [update_cons_nil] at hr
      split_ifs at hr
      · rw [List.mem_singleton] at hr
        rw [hr]; exact hcurr
      · rcases List.mem_cons.mp hr with h | h
        · rw [h]; dsimp only; omega
        · rw [List.mem_singleton] at h
          rw [h]; exact hcurr
      · rw [List.mem_singleton] at hr
        rw [hr]; dsimp only; omega
      · rw [List.mem_singleton] at hr
        rw [hr]; dsimp only; omega
      · rcases List.mem_cons.mp hr with h | h
        · rw [h]; exact hcurr
        · rw [List.mem_singleton] at h
          rw [h]; dsimp only; omega
    | cons next rest2 =>
      have hnext : next.last + 1 < B := hrest next (List.mem_cons_self _ _)
      rw [update_cons_cons] at hr
      split_ifs at hr with h1 h2 h3 h4 h5
      · rcases List.mem_cons.mp hr with h | h
        · rw [h]; exact hcurr
        · exact hrest r h
      · rcases List.mem_cons.mp hr with h | h
        · rw [h]; dsimp only; omega
        · rcases List.mem_cons.mp h with h6 | h6
          · rw [h6]; exact hcurr
          · exact hrest r h6
      · rcases List.mem_cons.mp hr with h | h
        · rw [h]; dsimp only; omega
        · exact hrest r h
      · rcases List.mem_cons.mp hr with h | h
        · rw [h]; dsimp only; omega
        · exact hrest r (List.mem_cons_of_mem _ h)
      · rcases List.mem_cons.mp hr with h | h
        · rw [h]; dsimp only; omega
        · exact hrest r h
      · rcases List.mem_cons.mp hr with h | h
        · rw [h]; exact hcurr
        · exact ih hrest r h

end Quic

namespace Quic

/-- C5: inserting any packet number into a sorted, disjoint, merged
(descending) ACK-range list through `quic_update_ack_ranges_list` yields a
list that is again sorted, disjoint and merged, and that represents exactly
the old set of packet numbers united with the new one: no packet number is
ever forgotten. -/
theorem quic_update_ack_ranges_list_spec (l : List AckRange) (pn : Int) (h : rangesWF l) :
    rangesWF (quic_update_ack_ranges_list l pn) ∧
    ∀ x : Int, rangesCover (quic_update_ack_ranges_list l pn) x ↔
      (rangesCover l x ∨ x = pn) := by
  induction l with
  | nil =>
    rw [update_nil]
    refine ⟨⟨?_, List.chain'_singleton _⟩, ?_⟩
    · intro r hr
      rw [List.mem_singleton] at hr
      subst hr
      dsimp only
      omega
    · intro x
      simp only [cover_cons, cover_nil x, or_false, false_or]
      omega
  | cons curr rest ih =>
    obtain ⟨hfst, hchain⟩ := h
    have hcf : curr.first ≤ curr.last := hfst curr (List.mem_cons_self _ _)
    have hfrest : ∀ r ∈ rest, r.first ≤ r.last :=
      fun r hr => hfst r (List.mem_cons_of_mem _ hr)
    have hbelow := chain_all_below curr rest hfrest hchain
    cases rest with
    | nil =>
      rw [update_cons_nil]
      split_ifs with h1 h2 h3 h4
      · refine ⟨⟨hfst, hchain⟩, ?_⟩
        intro x
        simp only [cover_cons, cover_nil x, or_false]
        omega
      · refine ⟨⟨?_, ?_⟩, ?_⟩
        · intro r hr
          rcases List.mem_cons.mp hr with hr | hr
          · subst hr; dsimp only; omega
          · exact hfst r hr
        · rw [List.chain'_cons]
          exact ⟨by dsimp only; omega, hchain⟩
        · intro x
          simp only [cover_cons, cover_nil x, or_false]
          omega
      · refine ⟨⟨?_, List.chain'_singleton _⟩, ?_⟩
        · intro r hr
          rw [List.mem_singleton] at hr
          subst hr
          dsimp only
          omega
        · intro x
          simp only [cover_cons, cover_nil x, or_false]
          omega
      · refine ⟨⟨?_, List.chain'_singleton _⟩, ?_⟩
        · intro r hr
          rw [List.mem_singleton] at hr
          subst hr
          dsimp only
          omega
        · intro x
          simp only [cover_cons, cover_nil x, or_false]
          omega
      · refine ⟨⟨?_, ?_⟩, ?_⟩
        · intro r hr
          rcases List.mem_cons.mp hr with hr | hr
          · subst hr; exact hcf
          · rw [List.mem_singleton] at hr
            subst hr; dsimp only; omega
        · rw [List.chain'_cons]
          refine ⟨by dsimp only; omega, List.chain'_singleton _⟩
        · intro x
          simp only [cover_cons, cover_nil x, or_false]
          omega
    | cons next rest2 =>
      have hnf : next.first ≤ next.last := hfrest next (List.mem_cons_self _ _)
      have hnlt : next.last + 1 < curr.first := hbelow next (List.mem_cons_self _ _)
      have hchain2 : List.Chain' (fun a b => b.last + 1 < a.first) (next :: rest2) :=
        hchain.tail
      rw [update_cons_cons]
      split_ifs with h1 h2 h3 h4 h5
      · refine ⟨⟨hfst, hchain⟩, ?_⟩
        intro x
        simp only [cover_cons]
        constructor
        · exact Or.inl
        · rintro ((hx | hx | hx) | rfl)
          · exact Or.inl hx
          · exact Or.inr (Or.inl hx)
          · exact Or.inr (Or.inr hx)
          · left
            exact ⟨h1.1, h1.2⟩
      · refine ⟨⟨?_, ?_⟩, ?_⟩
        · intro r hr
          rcases List.mem_cons.mp hr with hr | hr
          · subst hr; dsimp only; omega
          · exact hfst r hr
        · rw [List.chain'_cons]
          exact ⟨by dsimp only; omega, hchain⟩
        · intro x
          simp only [cover_cons]
          constructor
          · rintro (hx | hx | hx | hx)
            · right; omega
            · exact Or.inl (Or.inl hx)
            · exact Or.inl (Or.inr (Or.inl hx))
            · exact Or.inl (Or.inr (Or.inr hx))
          · rintro ((hx | hx | hx) | rfl)
            · exact Or.inr (Or.inl hx)
            · exact Or.inr (Or.inr (Or.inl hx))
            · exact Or.inr (Or.inr (Or.inr hx))
            · left; omega
      · refine ⟨⟨?_, ?_⟩, ?_⟩
        · intro r hr
          rcases List.mem_cons.mp hr with hr | hr
          · subst hr; dsimp only; omega
          · exact hfrest r hr
        · rw [List.chain'_cons']
          refine ⟨?_, hchain2⟩
          intro b hb
          have hbn : b = next := by
            simp only [List.head?_cons, Option.mem_def, Option.some.injEq] at hb
            exact hb.symm
          rw [hbn]
          dsimp only
          omega
        · intro x
          simp only [cover_cons]
          constructor
          · rintro (⟨hx1, hx2⟩ | hx | hx)
            · by_cases hxl : x ≤ curr.last
              · exact Or.inl (Or.inl ⟨hx1, hxl⟩)
              · right; omega
            · exact Or.inl (Or.inr (Or.inl hx))
            · exact Or.inl (Or.inr (Or.inr hx))
          · rintro ((⟨hx1, hx2⟩ | hx | hx) | rfl)
            · left; constructor <;> omega
            · exact Or.inr (Or.inl hx)
            · exact Or.inr (Or.inr hx)
            · left; constructor <;> omega
      · -- the gap between next and curr is exactly {pn}: merge the two ranges
        have hrest2f : ∀ r ∈ rest2, r.first ≤ r.last :=
          fun r hr => hfrest r (List.mem_cons_of_mem _ hr)
        have hbelow2 := chain_all_below next rest2 hrest2f hchain2
        refine ⟨⟨?_, ?_⟩, ?_⟩
        · intro r hr
          rcases List.mem_cons.mp hr with hr | hr
          · subst hr; dsimp only; omega
          · exact hrest2f r hr
        · rw [List.chain'_cons']
          refine ⟨?_, hchain2.tail⟩
          intro b hb
          have hbmem : b ∈ rest2 := by
            cases rest2 with
            | nil => simp at hb
            | cons c cs =>
              simp only [List.head?_cons, Option.mem_def, Option.some.injEq] at hb
              rw [← hb]
              exact List.mem_cons_self _ _
          have := hbelow2 b hbmem
          dsimp only
          omega
        · intro x
          simp only [cover_cons]
          constructor
          · rintro (⟨hx1, hx2⟩ | hx)
            · by_cases hxn : x ≤ next.last
              · exact Or.inl (Or.inr (Or.inl ⟨hx1, hxn⟩))
              · by_cases hxc : curr.first ≤ x
                · exact Or.inl (Or.inl ⟨hxc, hx2⟩)
                · right; omega
            · exact Or.inl (Or.inr (Or.inr hx))
          · rintro ((⟨hx1, hx2⟩ | ⟨hx1, hx2⟩ | hx) | rfl)
            · left; constructor <;> omega
            · left; constructor <;> omega
            · exact Or.inr hx
            · left; constructor <;> omega
      · refine ⟨⟨?_, ?_⟩, ?_⟩
        · intro r hr
          rcases List.mem_cons.mp hr with hr | hr
          · subst hr; dsimp only; omega
          · exact hfrest r hr
        · rw [List.chain'_cons]
          refine ⟨by dsimp only; omega, hchain2⟩
        · intro x
          simp only [cover_cons]
          constructor
          · rintro (⟨hx1, hx2⟩ | hx | hx)
            · by_cases hxc : curr.first ≤ x
              · exact Or.inl (Or.inl ⟨hxc, hx2⟩)
              · right; omega
            · exact Or.inl (Or.inr (Or.inl hx))
            · exact Or.inl (Or.inr (Or.inr hx))
          · rintro ((⟨hx1, hx2⟩ | hx | hx) | rfl)
            · left; constructor <;> omega
            · exact Or.inr (Or.inl hx)
            · exact Or.inr (Or.inr hx)
            · left; constructor <;> omega
      · -- pn lies strictly more than one below curr: recurse into the tail
        have hplt : pn + 1 < curr.first := by omega
        have hwf2 : rangesWF (next :: rest2) := ⟨hfrest, hchain2⟩
        obtain ⟨hwfu, hcovu⟩ := ih hwf2
        refine ⟨⟨?_, ?_⟩, ?_⟩
        · intro r hr
          rcases List.mem_cons.mp hr with hr | hr
          · subst hr; exact hcf
          · exact hwfu.1 r hr
        · rw [List.chain'_cons']
          refine ⟨?_, hwfu.2⟩
          intro b hb
          exact update_last_lt (next :: rest2) pn curr.first hbelow hplt b
            (List.mem_of_mem_head? hb)
        · intro x
          simp only [cover_cons, hcovu x]
          tauto

end Quic

namespace Quic

/-- Witness for C5 at a concrete well-formed list and packet number. -/
theorem quic_update_ack_ranges_list_spec_holds :
    rangesWF (quic_update_ack_ranges_list [⟨5, 6⟩, ⟨1, 2⟩] 4) ∧
    (rangesCover (quic_update_ack_ranges_list [⟨5, 6⟩, ⟨1, 2⟩] 4) 3 ↔
      rangesCover [⟨5, 6⟩, ⟨1, 2⟩] 3 ∨ (3 : Int) = 4) := by
  have hwf : rangesWF [⟨5, 6⟩, ⟨1, 2⟩] := by
    refine ⟨by decide, ?_⟩
    norm_num [List.chain'_cons]
  exact ⟨(quic_update_ack_ranges_list_spec [⟨5, 6⟩, ⟨1, 2⟩] 4 hwf).1,
         (quic_update_ack_ranges_list_spec [⟨5, 6⟩, ⟨1, 2⟩] 4 hwf).2 3⟩

/-- The spec scenario for ACK processing with a gap: outgoing CRYPTO
descriptors at packet numbers 5, 6, 7, 8 of 100 bytes each (offsets 0, 100,
200, 300), 400 bytes of CRYPTO in flight, retransmit flag clear, `tx.next_pn`
8 (the highest consumed), nothing acknowledged yet. -/
def ackGapScenarioState : ConnTxState :=
  ⟨[⟨5, 0, 100⟩, ⟨6, 100, 100⟩, ⟨7, 200, 100⟩, ⟨8, 300, 100⟩], [], 400, false, 8, -1⟩

/-- The spec scenario ACK frame: `largest_ack = 8`, `first_ack_range = 0`,
one `(gap, range) = (1, 1)` pair. -/
def ackGapScenarioFrm : AckFrm := ⟨8, 0, 1, [(1, 1)]⟩

/-- C1 counterexample: processing the scenario's ACK frame does not move the
descriptor of packet number 7 with its byte range intact into the retransmit
tree, contrary to the claim. -/
theorem qc_parse_ack_frm_gap_counterexample :
    (qc_parse_ack_frm ackGapScenarioState ackGapScenarioFrm).map ConnTxState.retransmit_frms
      ≠ some [⟨7, 200, 100⟩] := by decide

/-- C1 amended: under the source's RFC gap arithmetic
(`next largest = smallest - gap - 2`), the scenario ACK acknowledges `{8}`
and `[4, 5]`, so frames 6 and 7 form the gap: all four descriptors leave the
outgoing tree, the descriptors of packet numbers 6 and 7 are merged into a
single descriptor keyed at pn 6 with offset 100 and length 200 that is
inserted into the retransmit tree, the in-flight counter drops to 0, the
retransmit flag is set, and `rx.largest_acked_pn` becomes 8. -/
theorem qc_parse_ack_frm_gap_scenario :
    qc_parse_ack_frm ackGapScenarioState ackGapScenarioFrm
      = some ⟨[], [⟨6, 100, 200⟩], 0, true, 8, 8⟩ := by decide

end Quic


namespace Quic

/-- The CRYPTO chunks delivered to TLS are in strict offset order starting
at `off`: each chunk begins exactly where the previous one ended. -/
def deliveredChain : Nat → List (Nat × Nat) → Prop
  | _, [] => True
  | off, (o, l) :: rest => o = off ∧ deliveredChain (off + l) rest

instance deliveredChain_decidable : ∀ (off : Nat) (l : List (Nat × Nat)),
    Decidable (deliveredChain off l)
  | _, [] => isTrue trivial
  | off, (_, l) :: rest =>
    @instDecidableAnd _ _ _ (deliveredChain_decidable (off + l) rest)

theorem rxBookkeeping_crypto_offset (st : RxLevelState) (p : RxPkt) :
    (rxBookkeeping st p).crypto_offset = st.crypto_offset := by
  unfold rxBookkeeping
  split_ifs <;> rfl

theorem treat_nil (st : RxLevelState) : qc_treat_rx_pkts st [] = ⟨true, [], st, []⟩ := by
  rw [qc_treat_rx_pkts.eq_def]

theorem treat_cons_ooo (st : RxLevelState) (pkt : RxPkt) (rest : List RxPkt)
    (h : pkt.ooo = true) :
    qc_treat_rx_pkts st (pkt :: rest) = qc_treat_rx_pkts.treatCryptoPart st pkt rest := by
  rw [qc_treat_rx_pkts.eq_def]
  dsimp only
  rw [if_pos h]

theorem treat_cons_drop_decrypt (st : RxLevelState) (pkt : RxPkt) (rest : List RxPkt)
    (h1 : pkt.ooo = false) (h2 : pkt.decrypt_ok = false) :
    qc_treat_rx_pkts st (pkt :: rest) = qc_treat_rx_pkts st rest := by
  rw [qc_treat_rx_pkts.eq_def]
  dsimp only
  rw [if_neg (by simp [h1]), if_pos (by simp [h2])]

theorem treat_cons_drop_parse (st : RxLevelState) (pkt : RxPkt) (rest : List RxPkt)
    (h1 : pkt.ooo = false) (h2 : pkt.decrypt_ok = true) (h3 : pkt.parse_ok = false) :
    qc_treat_rx_pkts st (pkt :: rest) = qc_treat_rx_pkts st rest := by
  rw [qc_treat_rx_pkts.eq_def]
  dsimp only
  rw [if_neg (by simp [h1]), if_neg (by simp [h2]), if_pos (by simp [h3])]

theorem treat_cons_parsed (st : RxLevelState) (pkt : RxPkt) (rest : List RxPkt)
    (h1 : pkt.ooo = false) (h2 : pkt.decrypt_ok = true) (h3 : pkt.parse_ok = true) :
    qc_treat_rx_pkts st (pkt :: rest)
      = qc_treat_rx_pkts.treatCryptoPart (rxBookkeeping st (parsedPktFlags st pkt))
          (parsedPktFlags st pkt) rest := by
  rw [qc_treat_rx_pkts.eq_def]
  dsimp only
  rw [if_neg (by simp [h1]), if_neg (by simp [h2]), if_neg (by simp [h3])]

theorem tcp_deliver (st : RxLevelState) (p : RxPkt) (rest : List RxPkt) (o l : Nat)
    (hc : p.crypto = some (o, l)) (hl : l ≠ 0) (ho : o = st.crypto_offset)
    (hssl : p.ssl_ok = true) :
    qc_treat_rx_pkts.treatCryptoPart st p rest
      = ⟨(qc_treat_rx_pkts { st with crypto_offset := st.crypto_offset + l } rest).ok,
         (qc_treat_rx_pkts { st with crypto_offset := st.crypto_offset + l } rest).tree,
         (qc_treat_rx_pkts { st with crypto_offset := st.crypto_offset + l } rest).st,
         (o, l) :: (qc_treat_rx_pkts { st with crypto_offset := st.crypto_offset + l }
                      rest).delivered⟩ := by
  rw [qc_treat_rx_pkts.treatCryptoPart.eq_def]
  rw [hc]
  dsimp only
  rw [if_pos hl, if_pos ho, if_pos hssl]

theorem tcp_ssl_fail (st : RxLevelState) (p : RxPkt) (rest : List RxPkt) (o l : Nat)
    (hc : p.crypto = some (o, l)) (hl : l ≠ 0) (ho : o = st.crypto_offset)
    (hssl : p.ssl_ok = false) :
    qc_treat_rx_pkts.treatCryptoPart st p rest = ⟨false, p :: rest, st, []⟩ := by
  rw [qc_treat_rx_pkts.treatCryptoPart.eq_def]
  rw [hc]
  dsimp only
  rw [if_pos hl, if_pos ho, if_neg (by simp [hssl])]

theorem tcp_retain (st : RxLevelState) (p : RxPkt) (rest : List RxPkt) (o l : Nat)
    (hc : p.crypto = some (o, l)) (hl : l ≠ 0) (ho : o ≠ st.crypto_offset) :
    qc_treat_rx_pkts.treatCryptoPart st p rest
      = ⟨(qc_treat_rx_pkts st rest).ok, p :: (qc_treat_rx_pkts st rest).tree,
         (qc_treat_rx_pkts st rest).st, (qc_treat_rx_pkts st rest).delivered⟩ := by
  rw [qc_treat_rx_pkts.treatCryptoPart.eq_def]
  rw [hc]
  dsimp only
  rw [if_pos hl, if_neg ho]

theorem tcp_zero (st : RxLevelState) (p : RxPkt) (rest : List RxPkt) (o : Nat)
    (hc : p.crypto = some (o, 0)) :
    qc_treat_rx_pkts.treatCryptoPart st p rest = qc_treat_rx_pkts st rest := by
  rw [qc_treat_rx_pkts.treatCryptoPart.eq_def]
  rw [hc]
  dsimp only
  rw [if_neg (by simp)]

theorem tcp_none (st : RxLevelState) (p : RxPkt) (rest : List RxPkt)
    (hc : p.crypto = none) :
    qc_treat_rx_pkts.treatCryptoPart st p rest = qc_treat_rx_pkts st rest := by
  rw [qc_treat_rx_pkts.treatCryptoPart.eq_def]
  rw [hc]

end Quic

namespace Quic

/-- C2: one `qc_treat_rx_pkts` run delivers CRYPTO chunks to the TLS stack in
strict offset order — each chunk is passed exactly when its offset equals the
level's `rx.crypto.offset` at its processing time — and `rx.crypto.offset`
advances by exactly the total delivered length, so it always equals the
total number of CRYPTO bytes delivered in order to TLS at that level; apart
from the error return of a failed TLS call, every packet retained in the
level's rx tree is flagged out-of-order and holds a pending CRYPTO frame. -/
theorem qc_treat_rx_pkts_crypto_order : ∀ (pkts : List RxPkt) (st : RxLevelState),
    (qc_treat_rx_pkts st pkts).st.crypto_offset
        = st.crypto_offset + (((qc_treat_rx_pkts st pkts).delivered.map Prod.snd).sum) ∧
    deliveredChain st.crypto_offset (qc_treat_rx_pkts st pkts).delivered ∧
    ((qc_treat_rx_pkts st pkts).ok = true →
      ∀ p ∈ (qc_treat_rx_pkts st pkts).tree,
        p.ooo = true ∧ ∃ o l, p.crypto = some (o, l) ∧ l ≠ 0) := by
  intro pkts
  induction pkts with
  | nil =>
    intro st
    rw [treat_nil]
    exact ⟨by simp, trivial, by simp⟩
  | cons pkt rest ih =>
    intro st
    have hpart : ∀ (st1 : RxLevelState) (p1 : RxPkt),
        (∀ o l, p1.crypto = some (o, l) → l ≠ 0 → o ≠ st1.crypto_offset → p1.ooo = true) →
        (qc_treat_rx_pkts.treatCryptoPart st1 p1 rest).st.crypto_offset
            = st1.crypto_offset
              + (((qc_treat_rx_pkts.treatCryptoPart st1 p1 rest).delivered.map Prod.snd).sum) ∧
        deliveredChain st1.crypto_offset
          (qc_treat_rx_pkts.treatCryptoPart st1 p1 rest).delivered ∧
        ((qc_treat_rx_pkts.treatCryptoPart st1 p1 rest).ok = true →
          ∀ p ∈ (qc_treat_rx_pkts.treatCryptoPart st1 p1 rest).tree,
            p.ooo = true ∧ ∃ o l, p.crypto = some (o, l) ∧ l ≠ 0) := by
      intro st1 p1 hflag
      match hc : p1.crypto with
      | some (o, l) =>
        by_cases hl : l = 0
        · subst hl
          rw [tcp_zero st1 p1 rest o hc]
          exact ih st1
        · by_cases ho : o = st1.crypto_offset
          · by_cases hssl : p1.ssl_ok = true
            · rw [tcp_deliver st1 p1 rest o l hc hl ho hssl]
              obtain ⟨ih1, ih2, ih3⟩ := ih { st1 with crypto_offset := st1.crypto_offset + l }
              refine ⟨?_, ⟨ho, ?_⟩, ?_⟩
              · simp only [List.map_cons, List.sum_cons]
                simp only [] at ih1
                omega
              · simpa using ih2
              · intro hok p hp
                exact ih3 hok p hp
            · rw [tcp_ssl_fail st1 p1 rest o l hc hl ho (by simpa using hssl)]
              refine ⟨by simp, trivial, ?_⟩
              intro hok
              simp at hok
          · rw [tcp_retain st1 p1 rest o l hc hl ho]
            obtain ⟨ih1, ih2, ih3⟩ := ih st1
            refine ⟨by simpa using ih1, by simpa using ih2, ?_⟩
            intro hok p hp
            rcases List.mem_cons.mp hp with hp | hp
            · subst hp
              exact ⟨hflag o l hc hl ho, o, l, hc, hl⟩
            · exact ih3 hok p hp
      | none =>
        rw [tcp_none st1 p1 rest hc]
        exact ih st1
    by_cases hooo : pkt.ooo = true
    · rw [treat_cons_ooo st pkt rest hooo]
      exact hpart st pkt (fun _ _ _ _ _ => hooo)
    · have hoof : pkt.ooo = false := by simpa using hooo
      by_cases hdec : pkt.decrypt_ok = true
      · by_cases hpar : pkt.parse_ok = true
        · rw [treat_cons_parsed st pkt rest hoof hdec hpar]
          have hoff := rxBookkeeping_crypto_offset st (parsedPktFlags st pkt)
          have h := hpart (rxBookkeeping st (parsedPktFlags st pkt)) (parsedPktFlags st pkt) ?_
          · rw [hoff] at h
            exact h
          · intro o l hcl hlz honeq
            unfold parsedPktFlags at hcl ⊢
            by_cases hlong : pkt.long_header = true
            · rw [if_pos hlong] at hcl ⊢
              dsimp only at hcl ⊢
              rw [hcl]
              rw [hoff] at honeq
              simpa using honeq
            · rw [if_neg hlong] at hcl
              dsimp only at hcl
              cases hcl
        · rw [treat_cons_drop_parse st pkt rest hoof hdec (by simpa using hpar)]
          exact ih st
      · rw [treat_cons_drop_decrypt st pkt rest hoof (by simpa using hdec)]
        exact ih st

end Quic

namespace Quic

/-- Witness for C2 on a concrete tree: a packet delivering 100 CRYPTO bytes
at offset 0 followed by an out-of-order packet at offset 300. -/
theorem qc_treat_rx_pkts_crypto_order_holds :
    deliveredChain 0
      (qc_treat_rx_pkts ⟨0, -1, 0, false, []⟩
        [⟨1, true, true, true, true, true, some (0, 100), false⟩,
         ⟨3, true, true, true, true, true, some (300, 50), false⟩]).delivered ∧
    (qc_treat_rx_pkts ⟨0, -1, 0, false, []⟩
        [⟨1, true, true, true, true, true, some (0, 100), false⟩,
         ⟨3, true, true, true, true, true, some (300, 50), false⟩]).st.crypto_offset
      = 0 + ((qc_treat_rx_pkts ⟨0, -1, 0, false, []⟩
          [⟨1, true, true, true, true, true, some (0, 100), false⟩,
           ⟨3, true, true, true, true, true, some (300, 50), false⟩]).delivered.map
             Prod.snd).sum :=
  ⟨(qc_treat_rx_pkts_crypto_order _ ⟨0, -1, 0, false, []⟩).2.1,
   (qc_treat_rx_pkts_crypto_order _ ⟨0, -1, 0, false, []⟩).1⟩

/-- C7 counterexample: an Initial/Handshake packet that decrypts but whose
frame parsing fails is merely dropped: `qc_treat_rx_pkts` returns success
(1), the packet leaves the rx tree, and the level state is untouched — no
connection transport error is raised, contradicting the claim. -/
theorem qc_treat_rx_pkts_parse_fail_counterexample :
    qc_treat_rx_pkts ⟨0, -1, 0, false, []⟩
        [⟨1, true, true, false, true, false, some (0, 100), false⟩]
      = ⟨true, [], ⟨0, -1, 0, false, []⟩, []⟩ := by
  rw [treat_cons_drop_parse _ _ _ rfl rfl rfl, treat_nil]

/-- C7 amended: a received packet that decrypts successfully but whose frame
parsing fails is dropped from the rx tree and processing continues exactly
as if the packet had never been present; no connection error state is
entered and `qc_treat_rx_pkts` does not fail on its account. -/
theorem qc_treat_rx_pkts_parse_fail_drops (st : RxLevelState) (pkt : RxPkt)
    (rest : List RxPkt) (h1 : pkt.ooo = false) (h2 : pkt.decrypt_ok = true)
    (h3 : pkt.parse_ok = false) :
    qc_treat_rx_pkts st (pkt :: rest) = qc_treat_rx_pkts st rest :=
  treat_cons_drop_parse st pkt rest h1 h2 h3

/-- Witness for the amended C7 at a concrete packet. -/
theorem qc_treat_rx_pkts_parse_fail_drops_holds :
    qc_treat_rx_pkts ⟨0, -1, 0, false, []⟩
        [⟨1, true, true, false, true, false, some (0, 100), false⟩]
      = qc_treat_rx_pkts ⟨0, -1, 0, false, []⟩ [] :=
  qc_treat_rx_pkts_parse_fail_drops ⟨0, -1, 0, false, []⟩
    ⟨1, true, true, false, true, false, some (0, 100), false⟩ [] rfl rfl rfl

end Quic

namespace Quic

theorem i32_eq (x : Int) (h1 : -2 ^ 31 ≤ x) (h2 : x < 2 ^ 31) : i32 x = x := by
  unfold i32
  omega

theorem i32_sum_neg_iff (m inc : Int) (hm : 0 ≤ m) (hm2 : m < 2 ^ 31)
    (hi : 0 ≤ inc) (hi2 : inc < 2 ^ 31) : i32 (m + inc) < 0 ↔ 2 ^ 31 ≤ m + inc := by
  unfold i32
  omega

/-- C9 counterexample: a WINDOW_UPDATE with increment 0 on a closed stream
(stream id 1, `dsi = 1`) is ignored — `h3c_handle_window_update` returns 1
and records no error — contradicting the claim that a zero increment always
yields PROTOCOL_ERROR. -/
theorem h3c_handle_window_update_closed_counterexample :
    h3c_handle_window_update ⟨H3_CS_FRAME_H, 0, 100, 65535, 1⟩ ⟨1, H3_SS_CLOSED, 0, 0⟩ 0
      = (⟨H3_CS_FRAME_H, 0, 100, 65535, 1⟩, ⟨1, H3_SS_CLOSED, 0, 0⟩, 1) := by decide

/-- C9 amended: for every fully received WINDOW_UPDATE frame whose 4-byte
increment field, read as the signed `inc`, is non-negative: a frame for a
closed stream is ignored without error; otherwise an increment of 0 yields
PROTOCOL_ERROR (a stream error — RST path `H3_CS_FRAME_E` — for a nonzero
demux stream id, a connection error for stream 0); an increment pushing a
non-negative connection or effective stream window past `2^31 - 1` yields
FLOW_CONTROL_ERROR; otherwise the stream window `sws` (respectively the
connection window `mws`) grows by exactly the increment. -/
theorem h3c_handle_window_update_amended (h3c : H3c) (h3s : H3s) (inc : Int)
    (hinc0 : 0 ≤ inc) (hinc1 : inc < 2 ^ 31)
    (hmiw0 : 0 ≤ h3c.miw) (hmiw1 : h3c.miw < 2 ^ 31)
    (hsws0 : -2 ^ 31 ≤ h3s.sws) (heff : h3s.sws + h3c.miw < 2 ^ 31)
    (hmws0 : -2 ^ 31 ≤ h3c.mws) (hmws1 : h3c.mws < 2 ^ 31) :
    (h3c.dsi ≠ 0 → h3s.st = H3_SS_CLOSED →
      h3c_handle_window_update h3c h3s inc = (h3c, h3s, 1)) ∧
    (h3c.dsi ≠ 0 → h3s.st ≠ H3_SS_CLOSED → h3s.id ≠ 0 → h3s.st < H3_SS_ERROR →
      ((inc = 0 →
         h3c_handle_window_update h3c h3s inc
           = ({ h3c with st0 := H3_CS_FRAME_E },
              { h3s with errcode := H3_ERR_PROTOCOL_ERROR, st := H3_SS_ERROR }, 0)) ∧
       (inc ≠ 0 → 0 ≤ h3s.sws + h3c.miw → 2 ^ 31 - 1 < h3s.sws + h3c.miw + inc →
         h3c_handle_window_update h3c h3s inc
           = ({ h3c with st0 := H3_CS_FRAME_E },
              { h3s with errcode := H3_ERR_FLOW_CONTROL_ERROR, st := H3_SS_ERROR }, 0)) ∧
       (inc ≠ 0 → (h3s.sws + h3c.miw < 0 ∨ h3s.sws + h3c.miw + inc ≤ 2 ^ 31 - 1) →
         h3c_handle_window_update h3c h3s inc
           = (h3c, { h3s with sws := h3s.sws + inc }, 1)))) ∧
    (h3c.dsi = 0 →
      ((inc = 0 →
         h3c_handle_window_update h3c h3s inc
           = ({ h3c with errcode := H3_ERR_PROTOCOL_ERROR, st0 := H3_CS_ERROR }, h3s, 0)) ∧
       (inc ≠ 0 → 0 ≤ h3c.mws → 2 ^ 31 - 1 < h3c.mws + inc →
         h3c_handle_window_update h3c h3s inc
           = ({ h3c with errcode := H3_ERR_FLOW_CONTROL_ERROR, st0 := H3_CS_ERROR }, h3s, 0)) ∧
       (inc ≠ 0 → (h3c.mws < 0 ∨ h3c.mws + inc ≤ 2 ^ 31 - 1) →
         h3c_handle_window_update h3c h3s inc = ({ h3c with mws := h3c.mws + inc }, h3s, 1)))) := by
  have heff_eq : h3s_mws h3c h3s = h3s.sws + h3c.miw :=
    i32_eq _ (by omega) (by omega)
  refine ⟨?_, ?_, ?_⟩
  · intro hdsi hclosed
    unfold h3c_handle_window_update
    rw [if_pos hdsi, if_pos hclosed]
  · intro hdsi hclosed hid hstlt
    have herr : ∀ e, h3s_error h3s e = { h3s with errcode := e, st := H3_SS_ERROR } := by
      intro e
      unfold h3s_error
      rw [if_pos ⟨hid, by omega⟩, if_pos hstlt]
    refine ⟨?_, ?_, ?_⟩
    · intro hz
      unfold h3c_handle_window_update
      rw [if_pos hdsi, if_neg hclosed, if_pos hz, herr]
    · intro hnz hnn hover
      unfold h3c_handle_window_update
      rw [if_pos hdsi, if_neg hclosed, if_neg hnz, heff_eq,
        if_pos ⟨hnn, by rw [i32_sum_neg_iff _ _ hnn (by omega) hinc0 hinc1]; omega⟩, herr]
    · intro hnz hnover
      unfold h3c_handle_window_update
      rw [if_pos hdsi, if_neg hclosed, if_neg hnz, heff_eq]
      rw [if_neg ?hcond]
      case hcond =>
        rintro ⟨hnn, hwrap⟩
        rw [i32_sum_neg_iff _ _ hnn (by omega) hinc0 hinc1] at hwrap
        omega
      rw [i32_eq (h3s.sws + inc) (by omega) (by omega)]
  · intro hdsi
    refine ⟨?_, ?_, ?_⟩
    · intro hz
      unfold h3c_handle_window_update
      rw [if_neg (by simpa using hdsi), if_pos hz]
      rfl
    · intro hnz hnn hover
      unfold h3c_handle_window_update
      rw [if_neg (by simpa using hdsi), if_neg hnz,
        if_pos ⟨hnn, by rw [i32_sum_neg_iff _ _ hnn hmws1 hinc0 hinc1]; omega⟩]
      rfl
    · intro hnz hnover
      unfold h3c_handle_window_update
      rw [if_neg (by simpa using hdsi), if_neg hnz]
      rw [if_neg ?hcond2]
      case hcond2 =>
        rintro ⟨hnn, hwrap⟩
        rw [i32_sum_neg_iff _ _ hnn hmws1 hinc0 hinc1] at hwrap
        omega
      rw [i32_eq (h3c.mws + inc) (by omega) (by omega)]

/-- Witness for the amended C9: a normal stream window update by 1000 on an
open stream with `sws = 0`, `miw = 65535`. -/
theorem h3c_handle_window_update_amended_holds :
    h3c_handle_window_update ⟨H3_CS_FRAME_H, 0, 100, 65535, 1⟩ ⟨1, H3_SS_OPEN, 0, 0⟩ 1000
      = (⟨H3_CS_FRAME_H, 0, 100, 65535, 1⟩, ⟨1, H3_SS_OPEN, 1000, 0⟩, 1) := by
  have h := (h3c_handle_window_update_amended ⟨H3_CS_FRAME_H, 0, 100, 65535, 1⟩
    ⟨1, H3_SS_OPEN, 0, 0⟩ 1000 (by norm_num) (by norm_num) (by norm_num) (by norm_num)
    (by norm_num) (by norm_num) (by norm_num) (by norm_num)).2.1
  exact (h (by norm_num) (by decide) (by norm_num) (by decide)).2.2 (by norm_num)
    (by norm_num)

end Quic

namespace Quic

theorem quic_ack_frm_len_pos (l : List AckRange) (h : l ≠ []) : 0 < quic_ack_frm_len l := by
  cases l with
  | nil => exact absurd rfl h
  | cons r rest =>
    simp only [quic_ack_frm_len]
    omega

/-- C6 counterexample: with ACK_REQUIRED set and a non-empty range list, a
build attempt in a buffer that passes the header room check but leaves no
room for the CRYPTO frame builds the ACK frame into the scratch buffer,
clears ACK_REQUIRED, and then fails with -1: `qc_build_hdshk_pkt` commits
nothing (the connection tx state is unchanged) yet the flag is lost,
contradicting the claim that the flag is never cleared on a build attempt
that does not emit the ACK frame in a committed packet. -/
theorem qc_do_build_hdshk_pkt_flag_lost :
    BuildPktns.ack_required ⟨-1, true, [⟨0, 0⟩]⟩ = true ∧
    qc_build_hdshk_pkt ⟨[], [], 0, false, 0, -1⟩ ⟨24, true, 8, 8, true, 0, 100⟩
        ⟨-1, true, [⟨0, 0⟩]⟩ true true
      = (-1, ⟨[], [], 0, false, 0, -1⟩, false) := by decide

set_option maxHeartbeats 2000000 in
/-- C6 amended: whenever `qc_do_build_hdshk_pkt` reaches its ACK stage — the
in-flight clamp did not zero the request and the header room check passed —
with ACK_REQUIRED set and a non-empty range list, it serialises an ACK frame
built from the space's ack_ranges (of positive length, included in the
packet layout) and clears ACK_REQUIRED at that point; the flag is therefore
cleared on every such attempt, including those that subsequently fail
with -1 and commit no packet. -/
theorem qc_do_build_hdshk_pkt_ack_emit (bin : BuildIn) (pk : BuildPktns)
    (next_pn ifc : Nat) (hack : pk.ack_required = true) (hrng : pk.ack_ranges ≠ [])
    (hclamp : bin.crypto_len ≠ 0 → u64sub QUIC_CRYPTO_IN_FLIGHT_MAX ifc ≠ 0)
    (hroom : QUIC_LONG_PACKET_MINLEN + bin.dcid_len + bin.scid_len
      + (if bin.is_initial then 1 else 0) ≤ bin.room) :
    (qc_do_build_hdshk_pkt bin pk next_pn ifc).ack_frm_len
        = quic_ack_frm_len pk.ack_ranges ∧
    0 < (qc_do_build_hdshk_pkt bin pk next_pn ifc).ack_frm_len ∧
    (qc_do_build_hdshk_pkt bin pk next_pn ifc).ack_required = false := by
  have hclamp2 : ¬ (bin.crypto_len ≠ 0 ∧
      (if bin.crypto_len > u64sub QUIC_CRYPTO_IN_FLIGHT_MAX ifc then
        u64sub QUIC_CRYPTO_IN_FLIGHT_MAX ifc
      else bin.crypto_len) = 0) := by
    rintro ⟨hne, hz⟩
    have := hclamp hne
    split_ifs at hz <;> omega
  have hroom2 : ¬ (bin.room < QUIC_LONG_PACKET_MINLEN + bin.dcid_len + bin.scid_len
      + (if bin.is_initial then 1 else 0)) := by omega
  have hba : (pk.ack_required ∧ pk.ack_ranges ≠ []) := ⟨hack, hrng⟩
  unfold qc_do_build_hdshk_pkt
  rw [if_neg hclamp2]
  rw [if_neg hroom2]
  dsimp only
  rw [if_pos hba, if_pos hba]
  split_ifs <;>
    exact ⟨rfl, quic_ack_frm_len_pos pk.ack_ranges hrng, rfl⟩

/-- Witness for the amended C6: a successful build with an ACK frame for the
single range `[0, 0]` in a roomy buffer. -/
theorem qc_do_build_hdshk_pkt_ack_emit_holds :
    (qc_do_build_hdshk_pkt ⟨100, true, 8, 8, false, 0, 0⟩ ⟨-1, true, [⟨0, 0⟩]⟩ 0 0).ack_frm_len
        = quic_ack_frm_len [⟨0, 0⟩] ∧
    0 < (qc_do_build_hdshk_pkt ⟨100, true, 8, 8, false, 0, 0⟩ ⟨-1, true, [⟨0, 0⟩]⟩ 0 0).ack_frm_len ∧
    (qc_do_build_hdshk_pkt ⟨100, true, 8, 8, false, 0, 0⟩ ⟨-1, true, [⟨0, 0⟩]⟩ 0 0).ack_required
        = false :=
  qc_do_build_hdshk_pkt_ack_emit ⟨100, true, 8, 8, false, 0, 0⟩ ⟨-1, true, [⟨0, 0⟩]⟩ 0 0
    rfl (by decide) (fun h => absurd rfl h) (by decide)

end Quic

namespace Quic

theorem u64sub_eq (a b : Nat) (hb : b ≤ a) (ha : a < 2 ^ 64) : u64sub a b = a - b := by
  unfold u64sub
  omega

theorem sumLens_cons (f : TxCryptoFrm) (l : FrmTree) :
    sumLens (f :: l) = f.len + sumLens l := by
  simp [sumLens]

theorem sumLens_filter_partition (l : FrmTree) (p : TxCryptoFrm → Bool) :
    sumLens (l.filter p) + sumLens (l.filter (fun f => ! p f)) = sumLens l := by
  induction l with
  | nil => rfl
  | cons f l ih =>
    by_cases hp : p f
    · simp [List.filter_cons, hp, sumLens_cons]
      omega
    · have hp2 : p f = false := by simpa using hp
      simp [List.filter_cons, hp2, sumLens_cons]
      omega

theorem sumLens_filter_le (l : FrmTree) (p : TxCryptoFrm → Bool) :
    sumLens (l.filter p) ≤ sumLens l := by
  have := sumLens_filter_partition l p
  omega

theorem foldl_u64sub (l : FrmTree) (a : Nat) (h : sumLens l ≤ a) (ha : a < 2 ^ 64) :
    l.foldl (fun x f => u64sub x f.len) a = a - sumLens l := by
  induction l generalizing a with
  | nil => simp [sumLens]
  | cons f l ih =>
    rw [sumLens_cons] at h
    simp only [List.foldl_cons]
    rw [u64sub_eq a f.len (by omega) ha, ih (a - f.len) (by omega) (by omega),
      sumLens_cons]
    omega

theorem pairwise_pn_inj (l : FrmTree)
    (hp : List.Pairwise (fun a b => a.pn < b.pn) l) :
    ∀ f ∈ l, ∀ g ∈ l, f.pn = g.pn → f = g := by
  induction l with
  | nil => simp
  | cons x l ih =>
    rw [List.pairwise_cons] at hp
    intro f hf g hg hfg
    rcases List.mem_cons.mp hf with hf | hf <;> rcases List.mem_cons.mp hg with hg | hg
    · rw [hf, hg]
    · exfalso
      have := hp.1 g hg
      rw [hf] at hfg
      omega
    · exfalso
      have := hp.1 f hf
      rw [hg] at hfg
      omega
    · exact ih hp.2 f hf g hg hfg

theorem gap_caller_filter (l : FrmTree) (p : TxCryptoFrm → Bool) (aggr : TxCryptoFrm)
    (bpn : Nat) (hb : aggr.pn = bpn)
    (hpq : ∀ f ∈ l, f.pn = bpn → p f = true) :
    (l.filterMap (fun f => if f.pn = bpn then some aggr
                           else if p f then none else some f)).filter
        (fun f => ! decide (f.pn = aggr.pn))
      = l.filter (fun f => ! p f) := by
  induction l with
  | nil => rfl
  | cons f l ih =>
    have ih2 := ih (fun g hg => hpq g (List.mem_cons_of_mem _ hg))
    by_cases hf : f.pn = bpn
    · have hpf : p f = true := hpq f (List.mem_cons_self _ _) hf
      simp [List.filterMap_cons, hf, List.filter_cons, hb, hpf]
      simpa [hb] using ih2
    · by_cases hpf : p f = true
      · simp [List.filterMap_cons, hf, hpf, List.filter_cons]
        simpa [hpf] using ih2
      · have hpf2 : p f = false := by simpa using hpf
        have hq : ¬ (f.pn = aggr.pn) := by
          rw [hb]
          exact hf
        simp [List.filterMap_cons, hf, hpf2, List.filter_cons, hq]
        simpa using ih2

end Quic


namespace Quic

theorem mem_of_getLastOpt {l : FrmTree} {a : TxCryptoFrm} (h : l.getLast? = some a) :
    a ∈ l := by
  induction l with
  | nil => simp [List.getLast?] at h
  | cons x xs ih =>
    cases xs with
    | nil =>
      simp [List.getLast?] at h
      simp [h]
    | cons y ys =>
      rw [List.getLast?_cons_cons] at h
      exact List.mem_cons_of_mem _ (ih h)

theorem sumLens_append_single (l : FrmTree) (f : TxCryptoFrm) :
    sumLens (l ++ [f]) = sumLens l + f.len := by
  simp [sumLens]

theorem ack_range_frames_inv (frms : FrmTree) (ifc largest smallest : Nat)
    (frms1 : FrmTree) (ifc1 : Nat) (node : Option TxCryptoFrm)
    (hsum : ifc = sumLens frms) (hlt : ifc < 2 ^ 64)
    (heq : quic_ack_range_crypto_frames frms ifc largest smallest = (frms1, ifc1, node)) :
    ifc1 = sumLens frms1 ∧ sumLens frms1 ≤ sumLens frms ∧
    (∀ f ∈ frms1, f ∈ frms) ∧
    (List.Pairwise (fun a b => a.pn < b.pn) frms →
      List.Pairwise (fun a b => a.pn < b.pn) frms1) ∧
    (∀ frm, node = some frm → frm ∈ frms1) := by
  unfold quic_ack_range_crypto_frames at heq
  by_cases hany : frms.any (fun f => decide (f.pn = largest)) = true
  · rw [if_pos hany] at heq
    dsimp only at heq
    rw [Prod.mk.injEq, Prod.mk.injEq] at heq
    obtain ⟨e1, e2, e3⟩ := heq
    have hple := sumLens_filter_le frms (fun f => decide (smallest ≤ f.pn ∧ f.pn ≤ largest))
    have hpart := sumLens_filter_partition frms
      (fun f => decide (smallest ≤ f.pn ∧ f.pn ≤ largest))
    have hfold := foldl_u64sub
      (frms.filter (fun f => decide (smallest ≤ f.pn ∧ f.pn ≤ largest))) ifc
      (by omega) hlt
    refine ⟨?_, ?_, ?_, ?_, ?_⟩
    · rw [← e2, ← e1, hfold]
      omega
    · rw [← e1]
      omega
    · intro f hf
      rw [← e1] at hf
      exact List.mem_of_mem_filter hf
    · intro hpw
      rw [← e1]
      exact hpw.filter _
    · intro frm hnode
      rw [hnode] at e3
      have := mem_of_getLastOpt e3
      rw [← e1]
      exact List.mem_of_mem_filter this
  · rw [if_neg hany] at heq
    rw [Prod.mk.injEq, Prod.mk.injEq] at heq
    obtain ⟨e1, e2, e3⟩ := heq
    subst e1 e2
    refine ⟨hsum, le_refl _, fun f hf => hf, fun hpw => hpw, ?_⟩
    intro frm hnode
    rw [hnode] at e3
    exact absurd e3 (by simp)

theorem gap_frames_inv (frms : FrmTree) (ifc largest smallest next_largest : Nat)
    (frms1 : FrmTree) (ifc1 : Nat) (node : Option TxCryptoFrm)
    (hsum : ifc = sumLens frms) (hlt : ifc < 2 ^ 64)
    (hpw : List.Pairwise (fun a b => a.pn < b.pn) frms)
    (heq : quic_ack_range_with_gap_crypto_frames frms ifc largest smallest next_largest
            = (frms1, ifc1, node)) :
    (node = none →
      ifc1 = sumLens frms1 ∧ sumLens frms1 ≤ sumLens frms ∧
      (∀ f ∈ frms1, f ∈ frms) ∧ List.Pairwise (fun a b => a.pn < b.pn) frms1) ∧
    (∀ frm, node = some frm →
      ifc1 = sumLens (frms1.filter (fun f => ! decide (f.pn = frm.pn))) ∧
      sumLens (frms1.filter (fun f => ! decide (f.pn = frm.pn))) ≤ sumLens frms ∧
      (∀ f ∈ frms1.filter (fun f => ! decide (f.pn = frm.pn)), f ∈ frms) ∧
      List.Pairwise (fun a b => a.pn < b.pn)
        (frms1.filter (fun f => ! decide (f.pn = frm.pn)))) := by
  unfold quic_ack_range_with_gap_crypto_frames at heq
  rcases hr : quic_ack_range_crypto_frames frms ifc largest smallest with ⟨kept, kifc, knode⟩
  rw [hr] at heq
  obtain ⟨hk1, hk2, hk3, hk4, hk5⟩ :=
    ack_range_frames_inv frms ifc largest smallest kept kifc knode hsum hlt hr
  cases knode with
  | none =>
    dsimp only at heq
    rw [Prod.mk.injEq, Prod.mk.injEq] at heq
    obtain ⟨e1, e2, e3⟩ := heq
    subst e1 e2
    constructor
    · intro _
      exact ⟨hk1, hk2, hk3, hk4 hpw⟩
    · intro frm hfrm
      rw [← e3] at hfrm
      simp at hfrm
  | some frm0 =>
    dsimp only at heq
    rw [Prod.mk.injEq, Prod.mk.injEq] at heq
    obtain ⟨e1, e2, e3⟩ := heq
    constructor
    · intro hn
      rw [← e3] at hn
      simp at hn
    · intro frm hfrm
      rw [← e3] at hfrm
      injection hfrm with hfa
      subst hfa
      have hpwk : List.Pairwise (fun a b => a.pn < b.pn) kept := hk4 hpw
      have hfrm0mem : frm0 ∈ kept := hk5 frm0 rfl
      have hpfrm0 : gapMerged next_largest frm0.pn frm0 = true := by simp [gapMerged]
      have hfrm0M : frm0 ∈ kept.filter (gapMerged next_largest frm0.pn) :=
        List.mem_filter.mpr ⟨hfrm0mem, hpfrm0⟩
      have hbM : ((kept.filter (gapMerged next_largest frm0.pn)).head?).getD frm0
          ∈ kept.filter (gapMerged next_largest frm0.pn) := by
        rcases hm : kept.filter (gapMerged next_largest frm0.pn) with _ | ⟨m, ms⟩
        · rw [hm] at hfrm0M
          simp at hfrm0M
        · simp [List.head?]
      have hbk : ((kept.filter (gapMerged next_largest frm0.pn)).head?).getD frm0 ∈ kept :=
        List.mem_of_mem_filter hbM
      have hpb : gapMerged next_largest frm0.pn
          (((kept.filter (gapMerged next_largest frm0.pn)).head?).getD frm0) = true :=
        List.of_mem_filter hbM
      have hpq : ∀ f ∈ kept,
          f.pn = (((kept.filter (gapMerged next_largest frm0.pn)).head?).getD frm0).pn →
          gapMerged next_largest frm0.pn f = true := by
        intro f hf hfpn
        have hfb := pairwise_pn_inj kept hpwk f hf _ hbk hfpn
        rw [hfb]
        exact hpb
      have hcomp := gap_caller_filter kept (gapMerged next_largest frm0.pn)
        ⟨(((kept.filter (gapMerged next_largest frm0.pn)).head?).getD frm0).pn,
         (((kept.filter (gapMerged next_largest frm0.pn)).head?).getD frm0).offset,
         sumLens (kept.filter (gapMerged next_largest frm0.pn))⟩
        (((kept.filter (gapMerged next_largest frm0.pn)).head?).getD frm0).pn rfl hpq
      rw [← e1, hcomp]
      have hklt : kifc < 2 ^ 64 := by omega
      have htle := sumLens_filter_le kept (gapMerged next_largest frm0.pn)
      have hpart := sumLens_filter_partition kept (gapMerged next_largest frm0.pn)
      have hsub := u64sub_eq kifc (sumLens (kept.filter (gapMerged next_largest frm0.pn)))
        (by omega) hklt
      refine ⟨?_, by omega, ?_, hpwk.filter _⟩
      · rw [← e2, hsub]
        omega
      · intro f hf
        exact hk3 f (List.mem_of_mem_filter hf)

theorem parse_loop_inv (num : Nat) :
    ∀ (pairs : List (Nat × Nat)) (largest smallest : Nat) (st st2 : ConnTxState),
    TxInvariant st →
    qc_parse_ack_frm_loop st largest smallest num pairs = some st2 →
    TxInvariant st2 ∧ st2.tx_next_pn = st.tx_next_pn := by
  induction num with
  | zero =>
    intro pairs largest smallest st st2 hinv h
    obtain ⟨hsum, hmax, hpw, hbound⟩ := hinv
    have hM : QUIC_CRYPTO_IN_FLIGHT_MAX = 4096 := rfl
    rw [qc_parse_ack_frm_loop.eq_def] at h
    dsimp only at h
    rcases hr : quic_ack_range_crypto_frames st.frms st.crypto_in_flight largest smallest
      with ⟨f1, i1, n1⟩
    rw [hr] at h
    dsimp only at h
    obtain ⟨h1, h2, h3, h4, h5⟩ :=
      ack_range_frames_inv st.frms st.crypto_in_flight largest smallest f1 i1 n1 hsum
        (by omega) hr
    injection h with h
    subst h
    refine ⟨⟨h1, by dsimp only; omega, h4 hpw, ?_⟩, rfl⟩
    dsimp only
    intro f hf
    exact hbound f (h3 f hf)
  | succ n ih =>
    intro pairs largest smallest st st2 hinv h
    obtain ⟨hsum, hmax, hpw, hbound⟩ := hinv
    have hM : QUIC_CRYPTO_IN_FLIGHT_MAX = 4096 := rfl
    rw [qc_parse_ack_frm_loop.eq_def] at h
    dsimp only at h
    cases pairs with
    | nil => exact absurd h (by simp)
    | cons pr rest =>
      obtain ⟨gap, ack_range⟩ := pr
      dsimp only at h
      by_cases hc1 : smallest < gap + 2
      · rw [if_pos hc1] at h
        exact absurd h (by simp)
      · rw [if_neg hc1] at h
        by_cases hc2 : smallest - gap - 2 < ack_range
        · rw [if_pos hc2] at h
          exact absurd h (by simp)
        · rw [if_neg hc2] at h
          rcases hg : quic_ack_range_with_gap_crypto_frames st.frms st.crypto_in_flight
              largest smallest (smallest - gap - 2) with ⟨frms1, ifc1, node⟩
          rw [hg] at h
          dsimp only at h
          obtain ⟨hgn, hgs⟩ := gap_frames_inv st.frms st.crypto_in_flight largest smallest
            (smallest - gap - 2) frms1 ifc1 node hsum (by omega) hpw hg
          cases node with
          | none =>
            dsimp only at h
            obtain ⟨k1, k2, k3, k4⟩ := hgn rfl
            have hinv1 : TxInvariant
                { st with frms := frms1, crypto_in_flight := ifc1 } := by
              refine ⟨k1, by dsimp only; omega, k4, ?_⟩
              dsimp only
              intro f hf
              exact hbound f (k3 f hf)
            obtain ⟨hinv2, hpn⟩ := ih rest (smallest - gap - 2)
              (smallest - gap - 2 - ack_range) _ st2 hinv1 h
            exact ⟨hinv2, hpn⟩
          | some frm =>
            dsimp only at h
            obtain ⟨k1, k2, k3, k4⟩ := hgs frm rfl
            have hinv1 : TxInvariant
                { st with
                  frms := frms1.filter (fun f => ! decide (f.pn = frm.pn)),
                  retransmit_frms := insertByPn frm st.retransmit_frms,
                  crypto_in_flight := ifc1,
                  retransmit := true } := by
              refine ⟨k1, by dsimp only; omega, k4, ?_⟩
              dsimp only
              intro f hf
              exact hbound f (k3 f hf)
            obtain ⟨hinv2, hpn⟩ := ih rest (smallest - gap - 2)
              (smallest - gap - 2 - ack_range) _ st2 hinv1 h
            exact ⟨hinv2, hpn⟩

theorem qc_parse_ack_frm_inv (st : ConnTxState) (ack : AckFrm) (st2 : ConnTxState)
    (hinv : TxInvariant st) (h : qc_parse_ack_frm st ack = some st2) :
    TxInvariant st2 := by
  unfold qc_parse_ack_frm at h
  by_cases h1 : ack.largest_ack > st.tx_next_pn
  · rw [if_pos h1] at h
    exact absurd h (by simp)
  · rw [if_neg h1] at h
    by_cases h2 : ack.first_ack_range > ack.largest_ack
    · rw [if_pos h2] at h
      exact absurd h (by simp)
    · rw [if_neg h2] at h
      rcases hl : qc_parse_ack_frm_loop st ack.largest_ack
          (ack.largest_ack - ack.first_ack_range) ack.ack_range_num ack.pairs with _ | st1
      · rw [hl] at h
        exact absurd h (by simp)
      · rw [hl] at h
        dsimp only at h
        obtain ⟨hinv1, hpn⟩ := parse_loop_inv ack.ack_range_num ack.pairs ack.largest_ack
          (ack.largest_ack - ack.first_ack_range) st st1 hinv hl
        injection h with h
        subst h
        obtain ⟨a1, a2, a3, a4⟩ := hinv1
        exact ⟨a1, a2, a3, a4⟩

theorem ite_sub_le {c : Prop} [Decidable c] {a b o m : Nat}
    (ha : a - o ≤ m) (hb : b - o ≤ m) : (if c then a else b) - o ≤ m := by
  split
  · exact ha
  · exact hb

theorem max_stream_data_size_le (sz ilen dlen : Nat) :
    max_stream_data_size sz ilen dlen ≤ dlen :=
  min_le_left _ _

theorem add_ite_mss_sub_le {c : Prop} [Decidable c] {o m s i a : Nat} :
    o + (if c then max_stream_data_size s i (if a > m then m else a) else 0) - o ≤ m := by
  split
  · have h1 := max_stream_data_size_le s i (if a > m then m else a)
    have h2 : (if a > m then m else a) ≤ m := by split <;> omega
    omega
  · omega

set_option maxHeartbeats 1000000 in
theorem qc_do_build_crypto_le (bin : BuildIn) (pk : BuildPktns) (tx_next_pn ifc : Nat) :
    (qc_do_build_hdshk_pkt bin pk tx_next_pn ifc).offset_next - bin.offset
      ≤ u64sub QUIC_CRYPTO_IN_FLIGHT_MAX ifc := by
  unfold qc_do_build_hdshk_pkt
  dsimp only
  simp only [apply_ite BuildOut.offset_next]
  refine ite_sub_le (by omega) ?_
  refine ite_sub_le (by omega) ?_
  refine ite_sub_le (by omega) ?_
  refine ite_sub_le (by omega) ?_
  exact add_ite_mss_sub_le

theorem qc_build_hdshk_pkt_inv (st : ConnTxState) (bin : BuildIn) (pk : BuildPktns)
    (e hp : Bool) (hinv : TxInvariant st) :
    TxInvariant (qc_build_hdshk_pkt st bin pk e hp).2.1 := by
  obtain ⟨hsum, hmax, hpw, hbound⟩ := hinv
  have hM : QUIC_CRYPTO_IN_FLIGHT_MAX = 4096 := rfl
  have hle := qc_do_build_crypto_le bin pk st.tx_next_pn st.crypto_in_flight
  have hifc : st.crypto_in_flight ≤ QUIC_CRYPTO_IN_FLIGHT_MAX := by omega
  have hsub : u64sub QUIC_CRYPTO_IN_FLIGHT_MAX st.crypto_in_flight
      = QUIC_CRYPTO_IN_FLIGHT_MAX - st.crypto_in_flight :=
    u64sub_eq _ _ hifc (by rw [hM]; omega)
  unfold qc_build_hdshk_pkt
  dsimp only
  split_ifs with h1 h2 h3 h4
  · exact ⟨hsum, hmax, hpw, hbound⟩
  · exact ⟨hsum, hmax, hpw, hbound⟩
  · exact ⟨hsum, hmax, hpw, hbound⟩
  · refine ⟨?_, ?_, ?_, ?_⟩
    · dsimp only
      rw [sumLens_append_single]
      dsimp only
      omega
    · dsimp only
      rw [sumLens_append_single]
      dsimp only
      omega
    · dsimp only
      rw [List.pairwise_append]
      refine ⟨hpw, by simp, ?_⟩
      intro a ha b hb
      simp only [List.mem_singleton] at hb
      subst hb
      dsimp only
      have := hbound a ha
      omega
    · dsimp only
      intro f hf
      rw [List.mem_append] at hf
      rcases hf with hf | hf
      · have := hbound f hf
        omega
      · simp only [List.mem_singleton] at hf
        subst hf
        dsimp only
        omega
  · refine ⟨hsum, hmax, hpw, ?_⟩
    dsimp only
    intro f hf
    have := hbound f hf
    omega

end Quic

namespace Quic

/-- C3: every connection tx state reachable from the fresh state (empty
CRYPTO tree, `crypto_in_flight` 0) through handshake packet builds
(`qc_build_hdshk_pkt`, which clamps the CRYPTO payload to at most
`QUIC_CRYPTO_IN_FLIGHT_MAX - crypto_in_flight` before adding the emitted
length on commit) and through ACK-frame processing (`qc_parse_ack_frm`,
which subtracts the acknowledged lengths) keeps the in-flight counter equal
to the summed lengths of the outstanding CRYPTO frames and never lets it
exceed `QUIC_CRYPTO_IN_FLIGHT_MAX` (4096 bytes). -/
theorem crypto_in_flight_bounded (st : ConnTxState) (h : QuicTxReachable st) :
    st.crypto_in_flight = sumLens st.frms ∧
    st.crypto_in_flight ≤ QUIC_CRYPTO_IN_FLIGHT_MAX := by
  have hinv : TxInvariant st := by
    induction h with
    | init =>
      exact ⟨rfl, by decide, List.Pairwise.nil, by simp⟩
    | build st bin pk e hp hr ih => exact qc_build_hdshk_pkt_inv st bin pk e hp ih
    | ack st st2 ack hr hp ih => exact qc_parse_ack_frm_inv st ack st2 ih hp
  obtain ⟨h1, h2, _, _⟩ := hinv
  exact ⟨h1, by omega⟩

/-- C3 witness: the bound holds at the state reached by one successful
Initial-packet build carrying 100 CRYPTO bytes from the fresh connection. -/
theorem crypto_in_flight_bounded_holds :
    (qc_build_hdshk_pkt ⟨[], [], 0, false, 0, -1⟩ ⟨1500, true, 8, 8, true, 0, 100⟩
        ⟨-1, false, []⟩ true true).2.1.crypto_in_flight
      = sumLens (qc_build_hdshk_pkt ⟨[], [], 0, false, 0, -1⟩ ⟨1500, true, 8, 8, true, 0, 100⟩
          ⟨-1, false, []⟩ true true).2.1.frms ∧
    (qc_build_hdshk_pkt ⟨[], [], 0, false, 0, -1⟩ ⟨1500, true, 8, 8, true, 0, 100⟩
        ⟨-1, false, []⟩ true true).2.1.crypto_in_flight ≤ QUIC_CRYPTO_IN_FLIGHT_MAX :=
  crypto_in_flight_bounded _
    (QuicTxReachable.build ⟨[], [], 0, false, 0, -1⟩ ⟨1500, true, 8, 8, true, 0, 100⟩
      ⟨-1, false, []⟩ true true QuicTxReachable.init)

end Quic
